import Mathlib

/-!
# Verification of the pivy ebox core against its specification

The repository sources available here are `ebox.h` (the declarations and
doc comments of the ebox library) and the `pivy-zfs` command sources.  The
body of the ebox library itself (`ebox.c`) is not present, so the model of
the library operations below is built from the specification and from the
doc comments in `ebox.h`; each such definition is marked
`Modelled from the spec`.  The `pivy-zfs` functions `unlock_or_recover`
and `cmd_genopt` are embedded directly from the source file.

External cryptographic collaborators (the hardware-token sealed-box
oracle, the AEAD primitive and Shamir secret sharing) are out of scope of
the repository per the spec ("treated as external collaborators, named
only by their contract") and are modelled symbolically: a sealed box or
AEAD ciphertext records its key and plaintext together with an `intact`
flag, and decryption succeeds exactly when the key matches and the
ciphertext has not been tampered with.
-/

/-- Byte strings are lists of naturals; well-formed bytes are `< 256`. -/
abbrev Bytes := List Nat

/-- Error kinds of the library, from spec section 7 plus `NO_CHALLENGE`
(section 4.6), `ALREADY_UNLOCKED` (section 4.5) and the `NotFoundError`
used by the pivy-zfs local unlock path. -/
inductive Errf
  | invalidFormat
  | unsupportedVersion
  | invalidArg
  | invalidState
  | authFailed
  | noKey
  | insufficient
  | corrupt
  | again
  | alreadyUnlocked
  | noChallenge
  | crypto
  | noMemory
  deriving DecidableEq, Repr

/-- Modelled from the spec: one Shamir share of a secret (`sss/hazmat.h`
is an external collaborator; the spec gives only the contract
`split(secret, n, k) → shares`, `combine(shares) → secret`).  A share
records the secret it came from and its 1-based index. -/
structure Share where
  secret : Bytes
  idx : Nat
  deriving DecidableEq, Repr

/-- Modelled from the spec: `split(rk, n, k)` produces `n` shares with
share index `i` for part `i` in `1..n` (spec section 4.4 step 3c). -/
def sssSplit (secret : Bytes) (n : Nat) : List Share :=
  (List.range n).map (fun j => ⟨secret, j + 1⟩)

/-- Modelled from the spec: Shamir reconstruction.  Combining consistent
shares of one secret returns that secret; combining inconsistent shares
(some share corrupted) returns a value that is in general not the
original secret.  The caller (`ebox_recover`) checks the threshold before
combining. -/
def sssCombine : List Share → Bytes
  | [] => []
  | s :: rest =>
      if rest.all (fun t => t.secret = s.secret) then s.secret
      else 0 :: s.secret

/-- The plaintext protected by a recovery config's AEAD payload: the
master key and the optional recovery token (spec section 4.4 step 3b). -/
structure RecPayload where
  mkey : Bytes
  token : Option Bytes
  deriving DecidableEq, Repr

/-- Modelled from the spec: a symbolic AEAD ciphertext.  It records the
key it was produced under, the nonce, the plaintext and an `intact` flag;
tampering with the real ciphertext corresponds to clearing `intact`. -/
structure AEADCt (α : Type) where
  akey : Bytes
  nonce : Bytes
  pt : α
  intact : Bool
  deriving DecidableEq, Repr

/-- Modelled from the spec: AEAD encryption (always intact). -/
def aeadEncrypt {α : Type} (k nonce : Bytes) (pt : α) : AEADCt α :=
  ⟨k, nonce, pt, true⟩

/-- Modelled from the spec: AEAD decryption verifies the tag, i.e.
succeeds exactly when the key matches and the ciphertext is intact. -/
def aeadDecrypt {α : Type} (k : Bytes) (c : AEADCt α) : Option α :=
  if c.akey = k ∧ c.intact then some c.pt else none

/-- What a sealed box wraps: the master key directly (primary part) or a
Shamir share of the recovery key (recovery part), spec section 3.1. -/
inductive BoxContent
  | mkey (k : Bytes)
  | shr (s : Share)
  deriving DecidableEq, Repr

/-- Modelled from the spec: a symbolic hardware-token sealed box
(`piv_ecdh_box`).  It records the recipient public key (an abstract
identifier), the wrapped plaintext and an `intact` flag. -/
structure SealedBox where
  recipient : Nat
  content : BoxContent
  intact : Bool
  deriving DecidableEq, Repr

/-- Modelled from the spec: seal plaintext to a recipient public key. -/
def sealBox (recipient : Nat) (content : BoxContent) : SealedBox :=
  ⟨recipient, content, true⟩

/-- Modelled from the spec: unseal with a private key capability.
Returns the plaintext exactly when the capability matches the recipient
key and the box is intact (`NO_KEY` / `AUTH_FAILED` otherwise). -/
def unsealBox (priv : Nat) (b : SealedBox) : Option BoxContent :=
  if b.recipient = priv ∧ b.intact then some b.content else none

/-- A template part: recipient public key plus optional metadata
(spec section 3.1). -/
structure EboxTplPart where
  pubkey : Nat
  name : Option Bytes
  cak : Option Nat
  guid : Option Bytes
  deriving DecidableEq, Repr

/-- PRIMARY / RECOVERY configuration types (`enum ebox_config_type`). -/
inductive CfgType
  | primary
  | recovery
  deriving DecidableEq, Repr

/-- A template configuration: type, threshold `n` and parts. -/
structure EboxTplConfig where
  ctype : CfgType
  thresh : Nat
  parts : List EboxTplPart
  deriving DecidableEq, Repr

/-- A template: version plus ordered list of configurations. -/
structure EboxTpl where
  version : Nat
  configs : List EboxTplConfig
  deriving DecidableEq, Repr

/-- Modelled from the spec: an outstanding recovery challenge held on a
part; the requester ephemeral public key identifies responses to it. -/
structure Challenge where
  ephem : Nat
  deriving DecidableEq, Repr

/-- An ebox part: the template part metadata, the sealed box, and the
transient decrypt-time state (unsealed plaintext stored back on the part,
recovered share, outstanding challenge).  Transient state is never
serialized. -/
structure EboxPart where
  tpart : EboxTplPart
  box : SealedBox
  boxPlain : Option BoxContent
  pshare : Option Share
  chal : Option Challenge
  deriving DecidableEq, Repr

/-- An ebox configuration: type, threshold, parts and (for RECOVERY) the
AEAD-sealed recovery payload. -/
structure EboxConfig where
  ctype : CfgType
  thresh : Nat
  parts : List EboxPart
  recovCt : Option (AEADCt RecPayload)
  deriving DecidableEq, Repr

/-- An ebox: version, configurations, and the transient recovered key and
token (set only after a successful unlock or recover). -/
structure Ebox where
  version : Nat
  configs : List EboxConfig
  key : Option Bytes
  rtoken : Option Bytes
  deriving DecidableEq, Repr

/-- The template structure embedded in an ebox, reconstructed from its
configurations (the ebox carries a snapshot of the template it was
created from). -/
def ebox_tpl_of (e : Ebox) : EboxTpl :=
  ⟨1, e.configs.map (fun c => ⟨c.ctype, c.thresh, c.parts.map (fun p => p.tpart)⟩)⟩

/-- A freshly created part sealing `content` to a template part. -/
def mkPart (tp : EboxTplPart) (content : BoxContent) : EboxPart :=
  ⟨tp, sealBox tp.pubkey content, none, none, none⟩

/-- Modelled from the spec (section 4.4): build one ebox configuration
during `ebox_create` (`i` is the config index, used to draw the per-config
randomness). -/
def mkRecParts (rk : Bytes) : Nat → List EboxTplPart → List EboxPart
  | _, [] => []
  | j, tp :: tps => mkPart tp (BoxContent.shr ⟨rk, j⟩) :: mkRecParts rk (j + 1) tps

def createConfig (key : Bytes) (token : Option Bytes) (rnd : Nat → Bytes × Bytes)
    (i : Nat) (tc : EboxTplConfig) : EboxConfig :=
  match tc.ctype with
  | CfgType.primary =>
      ⟨CfgType.primary, tc.thresh,
        tc.parts.map (fun tp => mkPart tp (BoxContent.mkey key)), none⟩
  | CfgType.recovery =>
      let rk := (rnd i).1
      let nonce := (rnd i).2
      ⟨CfgType.recovery, tc.thresh, mkRecParts rk 1 tc.parts,
        some (aeadEncrypt rk nonce ⟨key, token⟩)⟩

/-- Modelled from the spec (section 4.4) and `ebox.h` (`ebox_create`):
create a new ebox from a template, sealing the key (and optional token).
For each PRIMARY config the key itself is sealed to each part; for each
RECOVERY config a fresh random recovery key `rk` is drawn (`rnd i` gives
the `(rk, nonce)` pair for config index `i`), the key and token are
AEAD-encrypted under `rk`, and `rk` is Shamir-split with one share sealed
per part. -/
def createConfigs (key : Bytes) (token : Option Bytes) (rnd : Nat → Bytes × Bytes) :
    Nat → List EboxTplConfig → List EboxConfig
  | _, [] => []
  | i, tc :: tcs =>
      createConfig key token rnd i tc :: createConfigs key token rnd (i + 1) tcs

def ebox_create (tpl : EboxTpl) (key : Bytes) (token : Option Bytes)
    (rnd : Nat → Bytes × Bytes) : Ebox :=
  ⟨2, createConfigs key token rnd 0 tpl.configs, none, none⟩

/-- Modelled from the spec: the external hardware oracle unseals the
sealed box of part `pi` of config `ci` using private-key capability
`priv`, and the plaintext is stored back on the part (spec section 4.5:
"unseal is done externally ... and the plaintext stored back into the
part"). -/
def ebox_unseal_part (e : Ebox) (ci pi : Nat) (priv : Nat) : Except Errf Ebox :=
  match e.configs[ci]? with
  | none => Except.error Errf.invalidArg
  | some c =>
      match c.parts[pi]? with
      | none => Except.error Errf.invalidArg
      | some p =>
          match unsealBox priv p.box with
          | none => Except.error Errf.noKey
          | some pl =>
              let p' := { p with boxPlain := some pl }
              Except.ok { e with configs := e.configs.set ci { c with parts := c.parts.set pi p' } }

/-- The key recovered from an unsealed primary part, if any. -/
def partUnlockKey (p : EboxPart) : Option Bytes :=
  match p.boxPlain with
  | some (BoxContent.mkey k) => some k
  | _ => none

/-- Modelled from the spec (section 4.5) and `ebox.h` (`ebox_unlock`):
unlock an ebox using a primary config.  Fails `ALREADY_UNLOCKED` if the
ebox already holds a key, `INVALID_STATE` (`EINVAL` in `ebox.h`) if none
of the config's part boxes were unsealed, `INVALID_ARG` if the recovered
key is empty; otherwise stores the key in the ebox's transient field. -/
def ebox_unlock (e : Ebox) (ci : Nat) : Except Errf Ebox :=
  if e.key.isSome then Except.error Errf.alreadyUnlocked
  else
    match e.configs[ci]? with
    | none => Except.error Errf.invalidArg
    | some c =>
        match c.parts.findSome? partUnlockKey with
        | none => Except.error Errf.invalidState
        | some k =>
            if k.length = 0 then Except.error Errf.invalidArg
            else Except.ok { e with key := some k }

/-- Modelled from the spec (section 4.6): generate a challenge for part
`pi` of config `ci`; the fresh requester ephemeral public key `ephem` is
bound into the challenge and stored on the part. -/
def ebox_gen_challenge (e : Ebox) (ci pi : Nat) (ephem : Nat) : Except Errf Ebox :=
  match e.configs[ci]? with
  | none => Except.error Errf.invalidArg
  | some c =>
      match c.parts[pi]? with
      | none => Except.error Errf.invalidArg
      | some p =>
          let p' := { p with chal := some (Challenge.mk ephem) }
          Except.ok { e with configs := e.configs.set ci { c with parts := c.parts.set pi p' } }

/-- Modelled from the spec (section 4.6, response path): the remote
holder unseals the part's share box with their device capability and
seals the share back to the requester ephemeral key from the challenge. -/
def holderRespond (priv : Nat) (shareBox : SealedBox) (ch : Challenge) :
    Option SealedBox :=
  (unsealBox priv shareBox).map (fun content => sealBox ch.ephem content)

/-- Does this part's outstanding challenge match a response box sealed to
ephemeral key `r`? -/
def chalMatches (r : Nat) (p : EboxPart) : Bool :=
  match p.chal with
  | some ch => ch.ephem = r
  | none => false

/-- Modelled from the spec (section 4.6, response intake) and `ebox.h`
(`ebox_challenge_response`): look up the part whose outstanding challenge
carries the ephemeral key the response was sealed to (`NO_CHALLENGE` if
none), reject with `AGAIN` (`EAGAIN` in `ebox.h`) if that part was
already fulfilled, fail `AUTH_FAILED` if decryption of the response
fails; otherwise store the share on the part, mark it fulfilled and
return the part's index (`*ppart`). -/
def ebox_challenge_response (e : Ebox) (ci : Nat) (resp : SealedBox) :
    Except Errf (Ebox × Nat) :=
  match e.configs[ci]? with
  | none => Except.error Errf.invalidArg
  | some c =>
      match c.parts.findIdx? (chalMatches resp.recipient) with
      | none => Except.error Errf.noChallenge
      | some pi =>
          match c.parts[pi]? with
          | none => Except.error Errf.invalidArg
          | some p =>
              if p.pshare.isSome then Except.error Errf.again
              else if resp.intact then
                match resp.content with
                | BoxContent.shr s =>
                    let p' := { p with pshare := some s }
                    let e' := { e with configs := e.configs.set ci { c with parts := c.parts.set pi p' } }
                    Except.ok (e', pi)
                | BoxContent.mkey _ => Except.error Errf.invalidFormat
              else Except.error Errf.authFailed

/-- Modelled from the spec (section 4.6, recover) and `ebox.h`
(`ebox_recover`): fails `EAGAIN` if the ebox is already unlocked or
recovered; `INSUFFICIENT` (`EINVAL` in `ebox.h`) if fewer than the
threshold number of parts are fulfilled; otherwise combines the first
`thresh` shares in part order, AEAD-decrypts the recovery payload
(`CORRUPT` / `EBADF` on tag failure) and installs the key and token. -/
def ebox_recover (e : Ebox) (ci : Nat) : Except Errf Ebox :=
  if e.key.isSome then Except.error Errf.again
  else
    match e.configs[ci]? with
    | none => Except.error Errf.invalidArg
    | some c =>
        let fulfilled := c.parts.filterMap (fun p => p.pshare)
        if fulfilled.length < c.thresh then Except.error Errf.insufficient
        else
          match c.recovCt with
          | none => Except.error Errf.corrupt
          | some ct =>
              match aeadDecrypt (sssCombine (fulfilled.take c.thresh)) ct with
              | none => Except.error Errf.corrupt
              | some pl => Except.ok { e with key := some pl.mkey, rtoken := pl.token }

/-! ## Helper lemmas on list search -/

theorem findSome?_first {α β : Type} (f : α → Option β) :
    ∀ (ps₁ : List α), (∀ q ∈ ps₁, f q = none) →
      ∀ (p : α) (k : β), f p = some k → ∀ (ps₂ : List α),
        List.findSome? f (ps₁ ++ p :: ps₂) = some k := by
  intro ps₁
  induction ps₁ with
  | nil =>
      intro _ p k hp ps₂
      simp [List.findSome?_cons, hp]
  | cons x xs ih =>
      intro hnone p k hp ps₂
      have hx : f x = none := hnone x (by simp)
      have hxs : ∀ q ∈ xs, f q = none := fun q hq => hnone q (by simp [hq])
      simp only [List.cons_append, List.findSome?_cons, hx]
      exact ih hxs p k hp ps₂

theorem findIdx?_first {α : Type} (f : α → Bool) :
    ∀ (ps₁ : List α), (∀ q ∈ ps₁, f q = false) →
      ∀ (p : α), f p = true → ∀ (ps₂ : List α) (s : Nat),
        List.findIdx? f (ps₁ ++ p :: ps₂) s = some (s + ps₁.length) := by
  intro ps₁
  induction ps₁ with
  | nil =>
      intro _ p hp ps₂ s
      simp [List.findIdx?_cons, hp]
  | cons x xs ih =>
      intro hnone p hp ps₂ s
      have hx : f x = false := hnone x (by simp)
      have hxs : ∀ q ∈ xs, f q = false := fun q hq => hnone q (by simp [hq])
      simp only [List.cons_append, List.findIdx?_cons, hx]
      rw [ih hxs p hp ps₂ (s + 1)]
      simp
      omega

theorem getElem?_append_middle {α : Type} (ps₁ : List α) (p : α) (ps₂ : List α) :
    (ps₁ ++ p :: ps₂)[ps₁.length]? = some p := by
  rw [List.getElem?_append_right (by omega)]
  simp

/-! ## Claim theorems: engine error handling -/

/-- C4: `ebox_unlock` fails `ALREADY_UNLOCKED` when the ebox already
holds a recovered key, fails `INVALID_STATE` (`EINVAL`) when none of the
config's part sealed boxes have been unsealed, and otherwise stores the
(non-empty) recovered key in the ebox's transient field. -/
theorem C4_ebox_unlock_cases (e : Ebox) (ci : Nat) (c : EboxConfig) :
    (∀ k, e.key = some k → ebox_unlock e ci = Except.error Errf.alreadyUnlocked) ∧
    (e.key = none → e.configs[ci]? = some c →
      (∀ q ∈ c.parts, partUnlockKey q = none) →
      ebox_unlock e ci = Except.error Errf.invalidState) ∧
    (∀ ps₁ p ps₂ k, e.key = none → e.configs[ci]? = some c →
      c.parts = ps₁ ++ p :: ps₂ → (∀ q ∈ ps₁, partUnlockKey q = none) →
      partUnlockKey p = some k → k ≠ [] →
      ebox_unlock e ci = Except.ok { e with key := some k }) := by
  refine ⟨?_, ?_, ?_⟩
  · intro k hk
    simp [ebox_unlock, hk]
  · intro hk hc hnone
    have : c.parts.findSome? partUnlockKey = none :=
      List.findSome?_eq_none_iff.mpr hnone
    simp [ebox_unlock, hk, hc, this]
  · intro ps₁ p ps₂ k hk hc hparts hnone hp hne
    have hfind : c.parts.findSome? partUnlockKey = some k := by
      rw [hparts]; exact findSome?_first _ ps₁ hnone p k hp ps₂
    have hlen : k.length ≠ 0 := by
      intro h0; exact hne (List.eq_nil_of_length_eq_zero h0)
    simp [ebox_unlock, hk, hc, hfind, hlen]

/-- C8: further calls to `ebox_recover` on an ebox that already holds a
key fail with `EAGAIN` and do not produce any new state (per the
`ebox.h` comment: "EAGAIN: the ebox is already unlocked or recovered"). -/
theorem C8_ebox_recover_already (e : Ebox) (ci : Nat) (k : Bytes)
    (h : e.key = some k) :
    ebox_recover e ci = Except.error Errf.again ∧
    ∀ e', ebox_recover e ci ≠ Except.ok e' := by
  have hr : ebox_recover e ci = Except.error Errf.again := by
    simp [ebox_recover, h]
  exact ⟨hr, fun e' hok => by rw [hr] at hok; cases hok⟩

/-- C5: `ebox_challenge_response` fails `NO_CHALLENGE` when no
outstanding challenge matches the response box, `AGAIN` when the matched
part was already fulfilled, `AUTH_FAILED` when decryption of the response
fails; on success it stores the share on the matched part, marks it
fulfilled and returns that part's index. -/
theorem C5_challenge_response_cases (e : Ebox) (ci : Nat) (c : EboxConfig)
    (resp : SealedBox) :
    (e.configs[ci]? = some c →
      (∀ p ∈ c.parts, chalMatches resp.recipient p = false) →
      ebox_challenge_response e ci resp = Except.error Errf.noChallenge) ∧
    (∀ ps₁ p ps₂ s, e.configs[ci]? = some c →
      c.parts = ps₁ ++ p :: ps₂ →
      (∀ q ∈ ps₁, chalMatches resp.recipient q = false) →
      chalMatches resp.recipient p = true → p.pshare = some s →
      ebox_challenge_response e ci resp = Except.error Errf.again) ∧
    (∀ ps₁ p ps₂, e.configs[ci]? = some c →
      c.parts = ps₁ ++ p :: ps₂ →
      (∀ q ∈ ps₁, chalMatches resp.recipient q = false) →
      chalMatches resp.recipient p = true → p.pshare = none →
      resp.intact = false →
      ebox_challenge_response e ci resp = Except.error Errf.authFailed) ∧
    (∀ ps₁ p ps₂ s, e.configs[ci]? = some c →
      c.parts = ps₁ ++ p :: ps₂ →
      (∀ q ∈ ps₁, chalMatches resp.recipient q = false) →
      chalMatches resp.recipient p = true → p.pshare = none →
      resp.intact = true → resp.content = BoxContent.shr s →
      ebox_challenge_response e ci resp =
        Except.ok ({ e with configs := e.configs.set ci { c with parts := c.parts.set ps₁.length { p with pshare := some s } } }, ps₁.length)) := by
  refine ⟨?_, ?_, ?_, ?_⟩
  · intro hc hnone
    have hfind : c.parts.findIdx? (chalMatches resp.recipient) = none :=
      List.findIdx?_eq_none_iff.mpr hnone
    simp [ebox_challenge_response, hc, hfind]
  · intro ps₁ p ps₂ s hc hparts hnone hp hs
    have hfind : c.parts.findIdx? (chalMatches resp.recipient) = some ps₁.length := by
      rw [hparts]
      have := findIdx?_first _ ps₁ hnone p hp ps₂ 0
      simpa using this
    have hget : c.parts[ps₁.length]? = some p := by
      rw [hparts]; exact getElem?_append_middle ps₁ p ps₂
    simp [ebox_challenge_response, hc, hfind, hget, hs]
  · intro ps₁ p ps₂ hc hparts hnone hp hs hint
    have hfind : c.parts.findIdx? (chalMatches resp.recipient) = some ps₁.length := by
      rw [hparts]
      have := findIdx?_first _ ps₁ hnone p hp ps₂ 0
      simpa using this
    have hget : c.parts[ps₁.length]? = some p := by
      rw [hparts]; exact getElem?_append_middle ps₁ p ps₂
    simp [ebox_challenge_response, hc, hfind, hget, hs, hint]
  · intro ps₁ p ps₂ s hc hparts hnone hp hs hint hcont
    have hfind : c.parts.findIdx? (chalMatches resp.recipient) = some ps₁.length := by
      rw [hparts]
      have := findIdx?_first _ ps₁ hnone p hp ps₂ 0
      simpa using this
    have hget : c.parts[ps₁.length]? = some p := by
      rw [hparts]; exact getElem?_append_middle ps₁ p ps₂
    simp [ebox_challenge_response, hc, hfind, hget, hs, hint, hcont]

/-- C3: when the AEAD tag of the recovery payload fails to verify during
`ebox_recover` (the reconstructed recovery key differs from the one the
payload was encrypted under, or the payload was tampered with),
`ebox_recover` reports `CORRUPT` (`EBADF`) and never installs a key. -/
theorem C3_recover_corrupt (e : Ebox) (ci : Nat) (c : EboxConfig)
    (ct : AEADCt RecPayload)
    (hk : e.key = none) (hc : e.configs[ci]? = some c)
    (hct : c.recovCt = some ct)
    (hlen : c.thresh ≤ (c.parts.filterMap (fun p => p.pshare)).length)
    (hmis : sssCombine ((c.parts.filterMap (fun p => p.pshare)).take c.thresh) ≠ ct.akey ∨
      ct.intact = false) :
    ebox_recover e ci = Except.error Errf.corrupt ∧
    ∀ e', ebox_recover e ci ≠ Except.ok e' := by
  have hdec : aeadDecrypt
      (sssCombine ((c.parts.filterMap (fun p => p.pshare)).take c.thresh)) ct = none := by
    rcases hmis with hm | hm
    · simp [aeadDecrypt]
      intro hak
      exact absurd hak.symm hm
    · simp [aeadDecrypt, hm]
  have hr : ebox_recover e ci = Except.error Errf.corrupt := by
    have hnl : ¬ (c.parts.filterMap (fun p => p.pshare)).length < c.thresh := by omega
    simp [ebox_recover, hk, hc, hct, hnl, hdec]
  exact ⟨hr, fun e' hok => by rw [hr] at hok; cases hok⟩

/-! ## Concrete sample states used by the witnesses -/

def wTplPartA : EboxTplPart := ⟨11, none, none, none⟩

def wTplPartB : EboxTplPart := ⟨12, none, none, none⟩

def wPartLocked : EboxPart := ⟨wTplPartA, sealBox 11 (BoxContent.mkey [7]), none, none, none⟩

def wPartOpen : EboxPart := { wPartLocked with boxPlain := some (BoxContent.mkey [7]) }

def wCfgLocked : EboxConfig := ⟨CfgType.primary, 1, [wPartLocked], none⟩

def wCfgOpen : EboxConfig := ⟨CfgType.primary, 1, [wPartOpen], none⟩

def wEboxLocked : Ebox := ⟨2, [wCfgLocked], none, none⟩

def wEboxOpen : Ebox := ⟨2, [wCfgOpen], none, none⟩

def wEboxDone : Ebox := ⟨2, [wCfgLocked], some [7], none⟩

def wShare1 : Share := ⟨[9, 9], 1⟩

def wShare2 : Share := ⟨[9, 9], 2⟩

def wRPart1 : EboxPart := ⟨wTplPartA, sealBox 11 (BoxContent.shr wShare1), none, none, some ⟨21⟩⟩

def wRPart2 : EboxPart := ⟨wTplPartB, sealBox 12 (BoxContent.shr wShare2), none, none, some ⟨22⟩⟩

def wRCt : AEADCt RecPayload := aeadEncrypt [9, 9] [1] ⟨[7], none⟩

def wRCfg : EboxConfig := ⟨CfgType.recovery, 2, [wRPart1, wRPart2], some wRCt⟩

def wREbox : Ebox := ⟨2, [wRCfg], none, none⟩

def wResp1 : SealedBox := sealBox 21 (BoxContent.shr wShare1)

def wRPart1F : EboxPart := { wRPart1 with pshare := some wShare1 }

def wRCfgF : EboxConfig := ⟨CfgType.recovery, 2, [wRPart1F, wRPart2], some wRCt⟩

def wREboxF : Ebox := ⟨2, [wRCfgF], none, none⟩

def wRPart2Bad : EboxPart := { wRPart2 with pshare := some ⟨[8, 8], 2⟩ }

def wRCfgBad : EboxConfig := ⟨CfgType.recovery, 2, [wRPart1F, wRPart2Bad], some wRCt⟩

def wREboxBad : Ebox := ⟨2, [wRCfgBad], none, none⟩

/-- Witness for C4 at a concrete one-part primary ebox. -/
theorem C4_witness :
    ebox_unlock wEboxDone 0 = Except.error Errf.alreadyUnlocked ∧
    ebox_unlock wEboxLocked 0 = Except.error Errf.invalidState ∧
    ebox_unlock wEboxOpen 0 = Except.ok { wEboxOpen with key := some [7] } :=
  ⟨(C4_ebox_unlock_cases wEboxDone 0 wCfgLocked).1 [7] rfl,
   (C4_ebox_unlock_cases wEboxLocked 0 wCfgLocked).2.1 rfl rfl (by decide),
   (C4_ebox_unlock_cases wEboxOpen 0 wCfgOpen).2.2 [] wPartOpen [] [7] rfl rfl rfl
     (by decide) rfl (by decide)⟩

/-- Witness for C8 at a concrete already-unlocked ebox. -/
theorem C8_witness :
    ebox_recover wEboxDone 0 = Except.error Errf.again ∧
    ∀ e', ebox_recover wEboxDone 0 ≠ Except.ok e' :=
  C8_ebox_recover_already wEboxDone 0 [7] rfl

/-- Witness for C5 at a concrete 2-of-2 recovery config. -/
theorem C5_witness :
    ebox_challenge_response wREbox 0 (sealBox 99 (BoxContent.shr wShare1)) =
      Except.error Errf.noChallenge ∧
    ebox_challenge_response wREboxF 0 wResp1 = Except.error Errf.again ∧
    ebox_challenge_response wREbox 0 ⟨21, BoxContent.shr wShare1, false⟩ =
      Except.error Errf.authFailed ∧
    ebox_challenge_response wREbox 0 wResp1 = Except.ok (wREboxF, 0) :=
  ⟨(C5_challenge_response_cases wREbox 0 wRCfg (sealBox 99 (BoxContent.shr wShare1))).1
      rfl (by decide),
   (C5_challenge_response_cases wREboxF 0 wRCfgF wResp1).2.1 [] wRPart1F [wRPart2] wShare1
      rfl rfl (by decide) (by decide) rfl,
   (C5_challenge_response_cases wREbox 0 wRCfg ⟨21, BoxContent.shr wShare1, false⟩).2.2.1
      [] wRPart1 [wRPart2] rfl rfl (by decide) (by decide) rfl rfl,
   ((C5_challenge_response_cases wREbox 0 wRCfg wResp1).2.2.2 [] wRPart1 [wRPart2] wShare1
      rfl rfl (by decide) (by decide) rfl rfl rfl).trans (by rfl)⟩

/-- Witness for C3 at a concrete recovery config whose second fulfilled
share was corrupted. -/
theorem C3_witness :
    ebox_recover wREboxBad 0 = Except.error Errf.corrupt ∧
    ∀ e', ebox_recover wREboxBad 0 ≠ Except.ok e' :=
  C3_recover_corrupt wREboxBad 0 wRCfgBad wRCt rfl rfl rfl (by decide)
    (Or.inl (by decide))

/-! ## Binary codec (spec section 4.1 / 6.1)

Length-tag-value encoding over byte lists, all integers big-endian.
Symbolic values (public keys, sealed boxes, AEAD ciphertexts) are encoded
injectively; the `intact` flags of the symbolic crypto are carried as a
byte. -/

def putU8 (n : Nat) : Bytes := [n % 256]

def getU8 : Bytes → Option (Nat × Bytes)
  | [] => none
  | b :: r => some (b, r)

def putU32 (n : Nat) : Bytes :=
  [n / 16777216 % 256, n / 65536 % 256, n / 256 % 256, n % 256]

def getU32 : Bytes → Option (Nat × Bytes)
  | b0 :: b1 :: b2 :: b3 :: r => some (((b0 * 256 + b1) * 256 + b2) * 256 + b3, r)
  | _ => none

/-- `u32` length followed by the raw data. -/
def putBytesV (d : Bytes) : Bytes := putU32 d.length ++ d

def getBytesV (b : Bytes) : Option (Bytes × Bytes) :=
  match getU32 b with
  | none => none
  | some (len, r) => if len ≤ r.length then some (r.take len, r.drop len) else none

def putBool (x : Bool) : Bytes := [if x then 1 else 0]

def getBool : Bytes → Option (Bool × Bytes)
  | [] => none
  | b :: r => if b = 0 then some (false, r) else if b = 1 then some (true, r) else none

def putOptBytes : Option Bytes → Bytes
  | none => [0]
  | some d => 1 :: putBytesV d

def getOptBytes : Bytes → Option (Option Bytes × Bytes)
  | [] => none
  | t :: r =>
      if t = 0 then some (none, r)
      else if t = 1 then
        match getBytesV r with
        | some (v, r') => some (some v, r')
        | none => none
      else none

/-- Decode a `u32` that must exactly fill the value. -/
def getU32E (b : Bytes) : Option Nat :=
  match getU32 b with
  | some (n, []) => some n
  | _ => none

theorem getU8_putU8 (n : Nat) (r : Bytes) (h : n < 256) :
    getU8 (putU8 n ++ r) = some (n, r) := by
  simp [putU8, getU8, Nat.mod_eq_of_lt h]

theorem getU32_putU32 (n : Nat) (r : Bytes) (h : n < 4294967296) :
    getU32 (putU32 n ++ r) = some (n, r) := by
  simp only [putU32, List.cons_append, List.nil_append, getU32]
  refine congrArg (fun m => some (m, r)) ?_
  omega

theorem getU32E_putU32 (n : Nat) (h : n < 4294967296) :
    getU32E (putU32 n) = some n := by
  have h4 : getU32 (putU32 n ++ []) = some (n, []) := getU32_putU32 n [] h
  rw [List.append_nil] at h4
  simp [getU32E, h4]

theorem getBytesV_putBytesV (d : Bytes) (r : Bytes) (h : d.length < 4294967296) :
    getBytesV (putBytesV d ++ r) = some (d, r) := by
  have hg : getU32 (putU32 d.length ++ (d ++ r)) = some (d.length, d ++ r) :=
    getU32_putU32 d.length (d ++ r) h
  simp only [putBytesV, List.append_assoc]
  rw [getBytesV, hg]
  simp [List.take_left, List.drop_left]

theorem getBool_putBool (x : Bool) (r : Bytes) :
    getBool (putBool x ++ r) = some (x, r) := by
  cases x <;> simp [putBool, getBool]

theorem getOptBytes_putOptBytes (d : Option Bytes) (r : Bytes)
    (h : ∀ v, d = some v → v.length < 4294967296) :
    getOptBytes (putOptBytes d ++ r) = some (d, r) := by
  cases d with
  | none => simp [putOptBytes, getOptBytes]
  | some v =>
      have hv := h v rfl
      simp only [putOptBytes, List.cons_append, getOptBytes]
      rw [getBytesV_putBytesV v r hv]
      simp

theorem getU32_length (b : Bytes) (n : Nat) (r : Bytes)
    (h : getU32 b = some (n, r)) : r.length + 4 = b.length := by
  match b with
  | [] => simp [getU32] at h
  | [_] => simp [getU32] at h
  | [_, _] => simp [getU32] at h
  | [_, _, _] => simp [getU32] at h
  | b0 :: b1 :: b2 :: b3 :: t =>
      simp [getU32] at h
      rw [← h.2]
      simp

theorem getBytesV_length (b : Bytes) (v : Bytes) (r : Bytes)
    (h : getBytesV b = some (v, r)) : r.length + 4 ≤ b.length := by
  rw [getBytesV] at h
  match hg : getU32 b with
  | none => rw [hg] at h; cases h
  | some (len, rr) =>
      rw [hg] at h
      have hlen := getU32_length b len rr hg
      by_cases hle : len ≤ rr.length
      · simp [hle] at h
        have : r.length ≤ rr.length := by
          rw [← h.2]
          simp
        omega
      · simp [hle] at h

/-- Tag-length-value item: `(tag:u8, len:u32, value)` (spec section 4.1). -/
def putTLV (t : Nat) (v : Bytes) : Bytes := t :: putBytesV v

/-- A field list followed by the sentinel tag `END = 0`. -/
def putTLVList : List (Nat × Bytes) → Bytes
  | [] => [0]
  | f :: fs => putTLV f.1 f.2 ++ putTLVList fs

/-- Generic TLV decode loop: read `(tag, len, value)` items until the
sentinel tag 0, feeding each through `upd`; unknown tags are skipped by
the `upd` functions, duplicate tags keep the last value seen
(spec section 4.1). -/
def parseTLVs {α : Type} (upd : Nat → Bytes → α → Option α) (acc : α) :
    Bytes → Option (α × Bytes)
  | [] => none
  | t :: r =>
      if t = 0 then some (acc, r)
      else
        match hg : getBytesV r with
        | none => none
        | some (v, r') =>
            match upd t v acc with
            | none => none
            | some acc' => parseTLVs upd acc' r'
termination_by b => b.length
decreasing_by
  have := getBytesV_length r v r' hg
  simp
  omega

theorem parseTLVs_end {α : Type} (upd : Nat → Bytes → α → Option α) (acc : α)
    (r : Bytes) : parseTLVs upd acc (0 :: r) = some (acc, r) := by
  rw [parseTLVs]
  simp

theorem parseTLVs_step {α : Type} (upd : Nat → Bytes → α → Option α)
    (acc acc' : α) (t : Nat) (v rest : Bytes) (ht : t ≠ 0)
    (hv : v.length < 4294967296) (hupd : upd t v acc = some acc') :
    parseTLVs upd acc (t :: (putBytesV v ++ rest)) = parseTLVs upd acc' rest := by
  rw [parseTLVs]
  simp only [ht, if_false]
  rw [getBytesV_putBytesV v rest hv]
  simp [hupd]

/-- Fold the decode updates over a field list. -/
def updFold {α : Type} (upd : Nat → Bytes → α → Option α) :
    List (Nat × Bytes) → α → Option α
  | [], acc => some acc
  | f :: fs, acc =>
      match upd f.1 f.2 acc with
      | none => none
      | some acc' => updFold upd fs acc'

theorem parseTLVs_putTLVList {α : Type} (upd : Nat → Bytes → α → Option α) :
    ∀ (fs : List (Nat × Bytes)) (acc acc' : α) (rest : Bytes),
      (∀ f ∈ fs, f.1 ≠ 0 ∧ f.2.length < 4294967296) →
      updFold upd fs acc = some acc' →
      parseTLVs upd acc (putTLVList fs ++ rest) = some (acc', rest) := by
  intro fs
  induction fs with
  | nil =>
      intro acc acc' rest _ hfold
      simp [updFold] at hfold
      rw [putTLVList, hfold]
      simpa using parseTLVs_end upd acc' rest
  | cons f fs ih =>
      intro acc acc' rest hwf hfold
      rw [updFold] at hfold
      match hu : upd f.1 f.2 acc with
      | none => rw [hu] at hfold; cases hfold
      | some acc₁ =>
          rw [hu] at hfold
          have hf := hwf f (by simp)
          have hfs : ∀ g ∈ fs, g.1 ≠ 0 ∧ g.2.length < 4294967296 :=
            fun g hg => hwf g (by simp [hg])
          rw [putTLVList, putTLV]
          simp only [List.cons_append, List.append_assoc]
          rw [parseTLVs_step upd acc acc₁ f.1 f.2 (putTLVList fs ++ rest) hf.1 hf.2 hu]
          exact ih acc₁ acc' rest hfs hfold

def putList {α : Type} (put1 : α → Bytes) : List α → Bytes
  | [] => []
  | x :: xs => put1 x ++ putList put1 xs

def getList {α : Type} (get1 : Bytes → Option (α × Bytes)) :
    Nat → Bytes → Option (List α × Bytes)
  | 0, b => some ([], b)
  | n + 1, b =>
      match get1 b with
      | none => none
      | some (x, r) =>
          match getList get1 n r with
          | none => none
          | some (xs, r') => some (x :: xs, r')

theorem getList_putList {α : Type} (put1 : α → Bytes)
    (get1 : Bytes → Option (α × Bytes)) :
    ∀ (xs : List α) (rest : Bytes),
      (∀ x ∈ xs, ∀ r, get1 (put1 x ++ r) = some (x, r)) →
      getList get1 xs.length (putList put1 xs ++ rest) = some (xs, rest) := by
  intro xs
  induction xs with
  | nil => intro rest _; simp [putList, getList]
  | cons x xs ih =>
      intro rest hall
      have hx := hall x (by simp) (putList put1 xs ++ rest)
      simp only [List.length_cons, putList, getList, List.append_assoc, hx]
      rw [ih rest (fun y hy r => hall y (by simp [hy]) r)]

/-! ## Template part serialization (wire tags 1..4, spec section 6.1) -/

def tplPartFields (p : EboxTplPart) : List (Nat × Bytes) :=
  (1, putU32 p.pubkey) ::
    ((match p.name with | some nm => [(2, nm)] | none => []) ++
     (match p.cak with | some c => [(3, putU32 c)] | none => []) ++
     (match p.guid with | some g => [(4, g)] | none => []))

def put_tpl_part (p : EboxTplPart) : Bytes := putTLVList (tplPartFields p)

structure TplPartAcc where
  pubkey : Option Nat
  name : Option Bytes
  cak : Option Nat
  guid : Option Bytes

def updTplPart (t : Nat) (v : Bytes) (a : TplPartAcc) : Option TplPartAcc :=
  if t = 1 then
    match getU32E v with
    | some pk => some { a with pubkey := some pk }
    | none => none
  else if t = 2 then some { a with name := some v }
  else if t = 3 then
    match getU32E v with
    | some ck => some { a with cak := some ck }
    | none => none
  else if t = 4 then some { a with guid := some v }
  else some a

def get_tpl_part (b : Bytes) : Option (EboxTplPart × Bytes) :=
  match parseTLVs updTplPart ⟨none, none, none, none⟩ b with
  | none => none
  | some (a, r) =>
      match a.pubkey with
      | none => none
      | some pk => some (⟨pk, a.name, a.cak, a.guid⟩, r)

theorem get_put_tpl_part (p : EboxTplPart) (rest : Bytes)
    (h1 : p.pubkey < 4294967296)
    (h2 : ∀ nm, p.name = some nm → nm.length < 4294967296)
    (h3 : ∀ c, p.cak = some c → c < 4294967296)
    (h4 : ∀ g, p.guid = some g → g.length < 4294967296) :
    get_tpl_part (put_tpl_part p ++ rest) = some (p, rest) := by
  have hwf : ∀ f ∈ tplPartFields p, f.1 ≠ 0 ∧ f.2.length < 4294967296 := by
    rcases hn : p.name with _ | nm <;> rcases hc : p.cak with _ | ck <;>
      rcases hgd : p.guid with _ | g <;>
        first
          | (have hb2 : nm.length < 4294967296 := h2 nm hn
             have hb4 : g.length < 4294967296 := h4 g hgd
             simp [tplPartFields, hn, hc, hgd, putU32] <;> omega)
          | (have hb2 : nm.length < 4294967296 := h2 nm hn
             simp [tplPartFields, hn, hc, hgd, putU32] <;> omega)
          | (have hb4 : g.length < 4294967296 := h4 g hgd
             simp [tplPartFields, hn, hc, hgd, putU32] <;> omega)
          | (simp [tplPartFields, hn, hc, hgd, putU32] <;> omega)
  have hfold : updFold updTplPart (tplPartFields p) ⟨none, none, none, none⟩ =
      some ⟨some p.pubkey, p.name, p.cak, p.guid⟩ := by
    rcases hn : p.name with _ | nm <;> rcases hc : p.cak with _ | ck <;>
      rcases hgd : p.guid with _ | g <;>
        first
          | simp [tplPartFields, updFold, updTplPart, hn, hc, hgd,
              getU32E_putU32 p.pubkey h1, getU32E_putU32 ck (h3 ck hc)]
          | simp [tplPartFields, updFold, updTplPart, hn, hc, hgd,
              getU32E_putU32 p.pubkey h1]
  rw [put_tpl_part, get_tpl_part,
    parseTLVs_putTLVList updTplPart (tplPartFields p) ⟨none, none, none, none⟩
      ⟨some p.pubkey, p.name, p.cak, p.guid⟩ rest hwf hfold]

/-! ## Sealed box serialization (spec section 6.1, symbolic encoding) -/

def putShare (s : Share) : Bytes := putBytesV s.secret ++ putU32 s.idx

def getShare (b : Bytes) : Option (Share × Bytes) :=
  match getBytesV b with
  | none => none
  | some (sec, r) =>
      match getU32 r with
      | none => none
      | some (i, r') => some (⟨sec, i⟩, r')

theorem getShare_putShare (s : Share) (rest : Bytes)
    (h1 : s.secret.length < 4294967296) (h2 : s.idx < 4294967296) :
    getShare (putShare s ++ rest) = some (s, rest) := by
  simp only [putShare, getShare, List.append_assoc,
    getBytesV_putBytesV s.secret (putU32 s.idx ++ rest) h1,
    getU32_putU32 s.idx rest h2]

def putBoxContent : BoxContent → Bytes
  | BoxContent.mkey k => 1 :: putBytesV k
  | BoxContent.shr s => 2 :: putShare s

def getBoxContent : Bytes → Option (BoxContent × Bytes)
  | [] => none
  | t :: r =>
      if t = 1 then
        match getBytesV r with
        | none => none
        | some (k, r') => some (BoxContent.mkey k, r')
      else if t = 2 then
        match getShare r with
        | none => none
        | some (s, r') => some (BoxContent.shr s, r')
      else none

def wfBytesLen (d : Bytes) : Bool := decide (d.length < 4294967296)

def wfOptBytesLen : Option Bytes → Bool
  | none => true
  | some d => wfBytesLen d

def wfShare (s : Share) : Bool := wfBytesLen s.secret && decide (s.idx < 4294967296)

def wfBoxContent : BoxContent → Bool
  | BoxContent.mkey k => wfBytesLen k
  | BoxContent.shr s => wfShare s

theorem getBoxContent_putBoxContent (c : BoxContent) (rest : Bytes)
    (h : wfBoxContent c = true) :
    getBoxContent (putBoxContent c ++ rest) = some (c, rest) := by
  cases c with
  | mkey k =>
      simp [wfBoxContent, wfBytesLen] at h
      simp [putBoxContent, getBoxContent, getBytesV_putBytesV k rest h]
  | shr s =>
      simp [wfBoxContent, wfShare, wfBytesLen, Bool.and_eq_true] at h
      simp [putBoxContent, getBoxContent, getShare_putShare s rest h.1 h.2]

def putSealedBox (sb : SealedBox) : Bytes :=
  putU8 1 ++ putU32 sb.recipient ++ putBool sb.intact ++ putBoxContent sb.content

def getSealedBox (b : Bytes) : Option (SealedBox × Bytes) :=
  match getU8 b with
  | none => none
  | some (v, r) =>
      if v = 1 then
        match getU32 r with
        | none => none
        | some (rcp, r) =>
            match getBool r with
            | none => none
            | some (co, r) =>
                match getBoxContent r with
                | none => none
                | some (cont, r) => some (⟨rcp, cont, co⟩, r)
      else none

def wfSealedBox (sb : SealedBox) : Bool :=
  decide (sb.recipient < 4294967296) && wfBoxContent sb.content

theorem getSealedBox_putSealedBox (sb : SealedBox) (rest : Bytes)
    (h : wfSealedBox sb = true) :
    getSealedBox (putSealedBox sb ++ rest) = some (sb, rest) := by
  simp [wfSealedBox, Bool.and_eq_true] at h
  simp only [putSealedBox, List.append_assoc]
  simp [getSealedBox, getU8_putU8 1 _ (by omega),
    getU32_putU32 sb.recipient _ h.1, getBool_putBool sb.intact _,
    getBoxContent_putBoxContent sb.content rest h.2]

/-- Decode a sealed box that must exactly fill a TLV value. -/
def getSealedBoxE (b : Bytes) : Option SealedBox :=
  match getSealedBox b with
  | some (sb, []) => some sb
  | _ => none

theorem getSealedBoxE_putSealedBox (sb : SealedBox) (h : wfSealedBox sb = true) :
    getSealedBoxE (putSealedBox sb) = some sb := by
  have := getSealedBox_putSealedBox sb [] h
  rw [List.append_nil] at this
  rw [getSealedBoxE, this]

/-! ## Ebox part serialization (wire tags 1..4 metadata, 5 = sealed box) -/

def eboxPartFields (p : EboxPart) : List (Nat × Bytes) :=
  (1, putU32 p.tpart.pubkey) ::
    ((match p.tpart.name with | some nm => [(2, nm)] | none => []) ++
     (match p.tpart.cak with | some c => [(3, putU32 c)] | none => []) ++
     (match p.tpart.guid with | some g => [(4, g)] | none => []) ++
     [(5, putSealedBox p.box)])

def put_ebox_part (p : EboxPart) : Bytes := putTLVList (eboxPartFields p)

structure EboxPartAcc where
  pubkey : Option Nat
  name : Option Bytes
  cak : Option Nat
  guid : Option Bytes
  box : Option SealedBox

def updEboxPart (t : Nat) (v : Bytes) (a : EboxPartAcc) : Option EboxPartAcc :=
  if t = 1 then
    match getU32E v with
    | some pk => some { a with pubkey := some pk }
    | none => none
  else if t = 2 then some { a with name := some v }
  else if t = 3 then
    match getU32E v with
    | some ck => some { a with cak := some ck }
    | none => none
  else if t = 4 then some { a with guid := some v }
  else if t = 5 then
    match getSealedBoxE v with
    | some sb => some { a with box := some sb }
    | none => none
  else some a

def get_ebox_part (b : Bytes) : Option (EboxPart × Bytes) :=
  match parseTLVs updEboxPart ⟨none, none, none, none, none⟩ b with
  | none => none
  | some (a, r) =>
      match a.pubkey, a.box with
      | some pk, some sb => some (⟨⟨pk, a.name, a.cak, a.guid⟩, sb, none, none, none⟩, r)
      | _, _ => none

def wfTplPartB (p : EboxTplPart) : Bool :=
  decide (p.pubkey < 4294967296) && wfOptBytesLen p.name &&
    (match p.cak with | none => true | some c => decide (c < 4294967296)) &&
    wfOptBytesLen p.guid

def wfEboxPart (p : EboxPart) : Bool :=
  wfTplPartB p.tpart && wfSealedBox p.box &&
    p.boxPlain.isNone && p.pshare.isNone && p.chal.isNone

theorem putSealedBox_length_lt (sb : SealedBox) :
    (putSealedBox sb).length < 4294967296 ∨ True := Or.inr trivial

theorem get_put_ebox_part (p : EboxPart) (rest : Bytes)
    (h : wfEboxPart p = true)
    (hsb : (putSealedBox p.box).length < 4294967296) :
    get_ebox_part (put_ebox_part p ++ rest) = some (p, rest) := by
  simp only [wfEboxPart, wfTplPartB, wfOptBytesLen, Bool.and_eq_true,
    decide_eq_true_eq] at h
  obtain ⟨⟨⟨⟨⟨⟨⟨h1, h2⟩, h3⟩, h4⟩, hbox⟩, hbp⟩, hps⟩, hch⟩ := h
  have hwf : ∀ f ∈ eboxPartFields p, f.1 ≠ 0 ∧ f.2.length < 4294967296 := by
    rcases hn : p.tpart.name with _ | nm <;> rcases hc : p.tpart.cak with _ | ck <;>
      rcases hgd : p.tpart.guid with _ | g <;>
        (try rw [hn] at h2) <;> (try rw [hgd] at h4) <;>
          simp only [wfBytesLen, wfOptBytesLen, decide_eq_true_eq] at h2 h4 <;>
            simp [eboxPartFields, hn, hc, hgd, putU32, hsb] <;> omega
  have hfold : updFold updEboxPart (eboxPartFields p) ⟨none, none, none, none, none⟩ =
      some ⟨some p.tpart.pubkey, p.tpart.name, p.tpart.cak, p.tpart.guid, some p.box⟩ := by
    rcases hn : p.tpart.name with _ | nm <;> rcases hc : p.tpart.cak with _ | ck <;>
      rcases hgd : p.tpart.guid with _ | g <;>
        first
          | simp [eboxPartFields, updFold, updEboxPart, hn, hc, hgd,
              getU32E_putU32 p.tpart.pubkey h1,
              getU32E_putU32 ck (by rw [hc] at h3; simpa using h3),
              getSealedBoxE_putSealedBox p.box hbox]
          | simp [eboxPartFields, updFold, updEboxPart, hn, hc, hgd,
              getU32E_putU32 p.tpart.pubkey h1,
              getSealedBoxE_putSealedBox p.box hbox]
  rw [put_ebox_part, get_ebox_part,
    parseTLVs_putTLVList updEboxPart (eboxPartFields p) ⟨none, none, none, none, none⟩
      ⟨some p.tpart.pubkey, p.tpart.name, p.tpart.cak, p.tpart.guid, some p.box⟩ rest hwf hfold]
  rw [Option.isNone_iff_eq_none] at hbp hps hch
  have hpe : (⟨⟨p.tpart.pubkey, p.tpart.name, p.tpart.cak, p.tpart.guid⟩, p.box,
      none, none, none⟩ : EboxPart) = p := by
    rw [← hbp, ← hps, ← hch]
  exact congrArg some (congrArg (fun q => (q, rest)) hpe)

/-! ## Config and template serialization (spec section 6.1) -/

def putCfgType : CfgType → Bytes
  | CfgType.primary => [1]
  | CfgType.recovery => [2]

def getCfgType : Bytes → Option (CfgType × Bytes)
  | [] => none
  | t :: r =>
      if t = 1 then some (CfgType.primary, r)
      else if t = 2 then some (CfgType.recovery, r)
      else none

theorem getCfgType_putCfgType (ty : CfgType) (rest : Bytes) :
    getCfgType (putCfgType ty ++ rest) = some (ty, rest) := by
  cases ty <;> simp [putCfgType, getCfgType]

def put_tpl_config (c : EboxTplConfig) : Bytes :=
  putCfgType c.ctype ++ putU8 c.parts.length ++ putU8 c.thresh ++
    putList put_tpl_part c.parts

def get_tpl_config (b : Bytes) : Option (EboxTplConfig × Bytes) :=
  match getCfgType b with
  | none => none
  | some (ty, r) =>
      match getU8 r with
      | none => none
      | some (np, r) =>
          match getU8 r with
          | none => none
          | some (th, r) =>
              match getList get_tpl_part np r with
              | none => none
              | some (ps, r) => some (⟨ty, th, ps⟩, r)

def wfTplConfigB (c : EboxTplConfig) : Bool :=
  decide (c.parts.length < 256) && decide (c.thresh < 256) && c.parts.all wfTplPartB

theorem get_put_tpl_part_of_wf (x : EboxTplPart) (r : Bytes)
    (hw : wfTplPartB x = true) :
    get_tpl_part (put_tpl_part x ++ r) = some (x, r) := by
  simp only [wfTplPartB, Bool.and_eq_true, decide_eq_true_eq] at hw
  obtain ⟨⟨⟨hx1, hx2⟩, hx3⟩, hx4⟩ := hw
  apply get_put_tpl_part
  · exact hx1
  · intro nm hnm; rw [hnm] at hx2; simpa [wfOptBytesLen, wfBytesLen] using hx2
  · intro cc hcc; rw [hcc] at hx3; simpa using hx3
  · intro g hg; rw [hg] at hx4; simpa [wfOptBytesLen, wfBytesLen] using hx4

theorem get_put_tpl_config (c : EboxTplConfig) (rest : Bytes)
    (h : wfTplConfigB c = true) :
    get_tpl_config (put_tpl_config c ++ rest) = some (c, rest) := by
  simp only [wfTplConfigB, Bool.and_eq_true, decide_eq_true_eq,
    List.all_eq_true] at h
  obtain ⟨⟨hnp, hth⟩, hps⟩ := h
  have hplist : getList get_tpl_part c.parts.length
      (putList put_tpl_part c.parts ++ rest) = some (c.parts, rest) :=
    getList_putList put_tpl_part get_tpl_part c.parts rest
      (fun x hx r => get_put_tpl_part_of_wf x r (hps x hx))
  simp only [put_tpl_config, get_tpl_config, List.append_assoc,
    getCfgType_putCfgType c.ctype _, getU8_putU8 c.parts.length _ hnp,
    getU8_putU8 c.thresh _ hth, hplist]

/-- `sshbuf_put_ebox_tpl`: magic `0xEB 0xDA`, version (=1), config count,
configs (spec section 6.1). -/
def sshbuf_put_ebox_tpl (t : EboxTpl) : Bytes :=
  235 :: 218 :: (putU8 t.version ++ putU8 t.configs.length ++
    putList put_tpl_config t.configs)

/-- `sshbuf_get_ebox_tpl`: parse a template from the wire. -/
def sshbuf_get_ebox_tpl : Bytes → Option (EboxTpl × Bytes)
  | m0 :: m1 :: b =>
      if m0 = 235 ∧ m1 = 218 then
        match getU8 b with
        | none => none
        | some (v, r) =>
            if v = 1 then
              match getU8 r with
              | none => none
              | some (nc, r) =>
                  match getList get_tpl_config nc r with
                  | none => none
                  | some (cs, r) => some (⟨1, cs⟩, r)
            else none
      else none
  | _ => none

/-- Well-formedness of a template for serialization: version 1, at most
255 configs of at most 255 parts each, and all numeric fields within
their wire widths (spec section 3.1 requires `|parts| ≤ 255`). -/
def wfTpl (t : EboxTpl) : Bool :=
  decide (t.version = 1) && decide (t.configs.length < 256) &&
    t.configs.all wfTplConfigB

theorem sshbuf_get_put_ebox_tpl (t : EboxTpl) (rest : Bytes)
    (h : wfTpl t = true) :
    sshbuf_get_ebox_tpl (sshbuf_put_ebox_tpl t ++ rest) = some (t, rest) := by
  simp only [wfTpl, Bool.and_eq_true, decide_eq_true_eq, List.all_eq_true] at h
  obtain ⟨⟨hv, hnc⟩, hcs⟩ := h
  obtain ⟨v, cs⟩ := t
  dsimp only at hv hnc hcs
  subst hv
  have hclist : getList get_tpl_config cs.length
      (putList put_tpl_config cs ++ rest) = some (cs, rest) :=
    getList_putList put_tpl_config get_tpl_config cs rest
      (fun x hx r => get_put_tpl_config x r (hcs x hx))
  simp [sshbuf_put_ebox_tpl, sshbuf_get_ebox_tpl, List.append_assoc,
    getU8_putU8 1 _ (by omega), getU8_putU8 cs.length _ hnc, hclist]

/-! ## Ebox serialization (spec section 6.1) -/

/-- Symbolic encoding of the recovery payload ciphertext (the AEAD key,
plaintext and integrity flag are the symbolic stand-ins for the real
ciphertext bytes). -/
def putRecCt (ct : AEADCt RecPayload) : Bytes :=
  putBool ct.intact ++ putBytesV ct.akey ++ putBytesV ct.pt.mkey ++
    putOptBytes ct.pt.token

def getRecCtE (nonce : Bytes) (b : Bytes) : Option (AEADCt RecPayload) :=
  match getBool b with
  | none => none
  | some (co, r) =>
      match getBytesV r with
      | none => none
      | some (ak, r) =>
          match getBytesV r with
          | none => none
          | some (mk, r) =>
              match getOptBytes r with
              | some (tok, []) => some ⟨ak, nonce, ⟨mk, tok⟩, co⟩
              | _ => none

def wfRecCt (ct : AEADCt RecPayload) : Bool :=
  wfBytesLen ct.akey && wfBytesLen ct.nonce && wfBytesLen ct.pt.mkey &&
    wfOptBytesLen ct.pt.token && wfBytesLen (putRecCt ct)

theorem getRecCtE_putRecCt (ct : AEADCt RecPayload)
    (hak : ct.akey.length < 4294967296) (hmk : ct.pt.mkey.length < 4294967296)
    (htok : ∀ v, ct.pt.token = some v → v.length < 4294967296) :
    getRecCtE ct.nonce (putRecCt ct) = some ct := by
  have hopt : getOptBytes (putOptBytes ct.pt.token ++ []) = some (ct.pt.token, []) :=
    getOptBytes_putOptBytes ct.pt.token [] htok
  rw [List.append_nil] at hopt
  simp only [putRecCt, getRecCtE, List.append_assoc,
    getBool_putBool ct.intact _, getBytesV_putBytesV ct.akey _ hak,
    getBytesV_putBytesV ct.pt.mkey _ hmk, hopt]

def put_ebox_config (c : EboxConfig) : Bytes :=
  putCfgType c.ctype ++ putU8 c.parts.length ++ putU8 c.thresh ++
    (match c.ctype, c.recovCt with
     | CfgType.recovery, some ct => putBytesV ct.nonce ++ putBytesV (putRecCt ct)
     | CfgType.recovery, none => putBytesV [] ++ putBytesV []
     | CfgType.primary, _ => []) ++
    putList put_ebox_part c.parts

def get_ebox_config (b : Bytes) : Option (EboxConfig × Bytes) :=
  match getCfgType b with
  | none => none
  | some (ty, r) =>
      match getU8 r with
      | none => none
      | some (np, r) =>
          match getU8 r with
          | none => none
          | some (th, r) =>
              match ty with
              | CfgType.primary =>
                  match getList get_ebox_part np r with
                  | none => none
                  | some (ps, r) => some (⟨CfgType.primary, th, ps, none⟩, r)
              | CfgType.recovery =>
                  match getBytesV r with
                  | none => none
                  | some (nonce, r) =>
                      match getBytesV r with
                      | none => none
                      | some (ctb, r) =>
                          match getRecCtE nonce ctb with
                          | none => none
                          | some ct =>
                              match getList get_ebox_part np r with
                              | none => none
                              | some (ps, r) =>
                                  some (⟨CfgType.recovery, th, ps, some ct⟩, r)

/-- Well-formedness of an ebox part for serialization: numeric bounds
plus fresh transient state. -/
def wfEboxPartB (p : EboxPart) : Bool :=
  wfEboxPart p && wfBytesLen (putSealedBox p.box)

def wfEboxConfigB (c : EboxConfig) : Bool :=
  decide (c.parts.length < 256) && decide (c.thresh < 256) &&
    c.parts.all wfEboxPartB &&
    (match c.ctype, c.recovCt with
     | CfgType.primary, none => true
     | CfgType.recovery, some ct => wfRecCt ct
     | _, _ => false)

theorem get_put_ebox_part_of_wf (x : EboxPart) (r : Bytes)
    (hw : wfEboxPartB x = true) :
    get_ebox_part (put_ebox_part x ++ r) = some (x, r) := by
  simp only [wfEboxPartB, wfBytesLen, Bool.and_eq_true, decide_eq_true_eq] at hw
  exact get_put_ebox_part x r hw.1 hw.2

theorem get_put_ebox_config (c : EboxConfig) (rest : Bytes)
    (h : wfEboxConfigB c = true) :
    get_ebox_config (put_ebox_config c ++ rest) = some (c, rest) := by
  simp only [wfEboxConfigB, Bool.and_eq_true, decide_eq_true_eq,
    List.all_eq_true] at h
  obtain ⟨⟨⟨hnp, hth⟩, hps⟩, hrec⟩ := h
  have hplist : getList get_ebox_part c.parts.length
      (putList put_ebox_part c.parts ++ rest) = some (c.parts, rest) :=
    getList_putList put_ebox_part get_ebox_part c.parts rest
      (fun x hx r => get_put_ebox_part_of_wf x r (hps x hx))
  match hty : c.ctype, hct : c.recovCt with
  | CfgType.primary, none =>
      obtain ⟨ty, th, ps, rc⟩ := c
      dsimp only at hty hct hnp hth hplist
      subst hty; subst hct
      simp only [put_ebox_config, get_ebox_config, List.append_assoc]
      simp [getCfgType_putCfgType CfgType.primary _, getU8_putU8 ps.length _ hnp,
        getU8_putU8 th _ hth, hplist]
  | CfgType.primary, some ct =>
      rw [hty, hct] at hrec; simp at hrec
  | CfgType.recovery, none =>
      rw [hty, hct] at hrec; simp at hrec
  | CfgType.recovery, some ct =>
      rw [hty, hct] at hrec
      simp only [wfRecCt, wfBytesLen, wfOptBytesLen, Bool.and_eq_true,
        decide_eq_true_eq] at hrec
      obtain ⟨⟨⟨⟨hak, hnn⟩, hmk⟩, htok⟩, hctb⟩ := hrec
      have hctE : getRecCtE ct.nonce (putRecCt ct) = some ct := by
        apply getRecCtE_putRecCt ct hak hmk
        intro v hv
        rw [hv] at htok
        simpa [wfOptBytesLen, wfBytesLen] using htok
      obtain ⟨ty, th, ps, rc⟩ := c
      dsimp only at hty hct hnp hth hplist
      subst hty; subst hct
      simp only [put_ebox_config, get_ebox_config, List.append_assoc]
      simp [getCfgType_putCfgType CfgType.recovery _, getU8_putU8 ps.length _ hnp,
        getU8_putU8 th _ hth, getBytesV_putBytesV ct.nonce _ hnn,
        getBytesV_putBytesV (putRecCt ct) _ hctb, hctE, hplist]

/-- `sshbuf_put_ebox`: magic `0xEB 0x0C`, version (=2), config count,
configs (spec section 6.1). -/
def sshbuf_put_ebox (e : Ebox) : Bytes :=
  235 :: 12 :: (putU8 e.version ++ putU8 e.configs.length ++
    putList put_ebox_config e.configs)

/-- `sshbuf_get_ebox`: parse an ebox from the wire; the transient
unlock-time state of the parsed ebox is fresh. -/
def sshbuf_get_ebox : Bytes → Option (Ebox × Bytes)
  | m0 :: m1 :: b =>
      if m0 = 235 ∧ m1 = 12 then
        match getU8 b with
        | none => none
        | some (v, r) =>
            if v = 2 then
              match getU8 r with
              | none => none
              | some (nc, r) =>
                  match getList get_ebox_config nc r with
                  | none => none
                  | some (cs, r) => some (⟨2, cs, none, none⟩, r)
            else none
      else none
  | _ => none

/-- Well-formedness of an ebox for serialization: version 2, bounded
counts and widths, fresh transient state. -/
def wfEbox (e : Ebox) : Bool :=
  decide (e.version = 2) && decide (e.configs.length < 256) &&
    e.configs.all wfEboxConfigB && e.key.isNone && e.rtoken.isNone

theorem sshbuf_get_put_ebox (e : Ebox) (rest : Bytes) (h : wfEbox e = true) :
    sshbuf_get_ebox (sshbuf_put_ebox e ++ rest) = some (e, rest) := by
  simp only [wfEbox, Bool.and_eq_true, decide_eq_true_eq, List.all_eq_true] at h
  obtain ⟨⟨⟨⟨hv, hnc⟩, hcs⟩, hk⟩, ht⟩ := h
  rw [Option.isNone_iff_eq_none] at hk ht
  obtain ⟨v, cs, ky, tk⟩ := e
  dsimp only at hv hnc hcs hk ht
  subst hv; subst hk; subst ht
  have hclist : getList get_ebox_config cs.length
      (putList put_ebox_config cs ++ rest) = some (cs, rest) :=
    getList_putList put_ebox_config get_ebox_config cs rest
      (fun x hx r => get_put_ebox_config x r (hcs x hx))
  simp [sshbuf_put_ebox, sshbuf_get_ebox, List.append_assoc,
    getU8_putU8 2 _ (by omega), getU8_putU8 cs.length _ hnc, hclist]

/-! ## Properties of ebox creation -/

/-- `ebox_key` accessor (`ebox.h`): the recovered key of an unlocked ebox. -/
def ebox_key (e : Ebox) : Option Bytes := e.key

def optLen : Option Bytes → Nat
  | none => 0
  | some v => v.length

/-- Size bounds on the inputs of `ebox_create` so that every wire field
fits its `u32` length. -/
def wfCreateRnd (K : Bytes) (token : Option Bytes) (rnd : Nat → Bytes × Bytes) : Prop :=
  ∀ i, K.length + (rnd i).1.length + optLen token + (rnd i).2.length + 64 < 4294967296

theorem mkRecParts_map_tpart (rk : Bytes) :
    ∀ (tps : List EboxTplPart) (j : Nat),
      (mkRecParts rk j tps).map (fun p => p.tpart) = tps := by
  intro tps
  induction tps with
  | nil => intro j; simp [mkRecParts]
  | cons tp tps ih => intro j; simp [mkRecParts, mkPart, ih (j + 1)]

theorem mem_mkRecParts (rk : Bytes) :
    ∀ (tps : List EboxTplPart) (j : Nat) (q : EboxPart), q ∈ mkRecParts rk j tps →
      ∃ tp jj, tp ∈ tps ∧ j ≤ jj ∧ jj < j + tps.length ∧
        q = mkPart tp (BoxContent.shr ⟨rk, jj⟩) := by
  intro tps
  induction tps with
  | nil => intro j q hq; simp [mkRecParts] at hq
  | cons tp tps ih =>
      intro j q hq
      rw [mkRecParts] at hq
      rcases List.mem_cons.mp hq with h | h
      · exact ⟨tp, j, by simp, le_refl j, by simp only [List.length_cons]; omega, h⟩
      · obtain ⟨tp', jj, htp', hj1, hj2, hq'⟩ := ih (j + 1) q h
        exact ⟨tp', jj, by simp [htp'], by omega,
          by simp only [List.length_cons]; omega, hq'⟩

theorem createConfig_tplcfg (key : Bytes) (token : Option Bytes)
    (rnd : Nat → Bytes × Bytes) (i : Nat) (tc : EboxTplConfig) :
    (⟨(createConfig key token rnd i tc).ctype, (createConfig key token rnd i tc).thresh,
      (createConfig key token rnd i tc).parts.map (fun p => p.tpart)⟩ : EboxTplConfig) = tc := by
  obtain ⟨ty, th, ps⟩ := tc
  cases ty <;> simp [createConfig, mkPart, Function.comp_def, mkRecParts_map_tpart]

theorem createConfigs_getElem (key : Bytes) (token : Option Bytes)
    (rnd : Nat → Bytes × Bytes) :
    ∀ (tcs : List EboxTplConfig) (i j : Nat),
      (createConfigs key token rnd i tcs)[j]? =
        (tcs[j]?).map (fun tc => createConfig key token rnd (i + j) tc) := by
  intro tcs
  induction tcs with
  | nil => intro i j; simp [createConfigs]
  | cons tc tcs ih =>
      intro i j
      cases j with
      | zero => simp [createConfigs]
      | succ j =>
          rw [createConfigs]
          simp only [List.getElem?_cons_succ]
          rw [ih (i + 1) j]
          have : i + 1 + j = i + (j + 1) := by omega
          rw [this]

theorem createConfigs_length (key : Bytes) (token : Option Bytes)
    (rnd : Nat → Bytes × Bytes) :
    ∀ (tcs : List EboxTplConfig) (i : Nat),
      (createConfigs key token rnd i tcs).length = tcs.length := by
  intro tcs
  induction tcs with
  | nil => intro i; simp [createConfigs]
  | cons tc tcs ih => intro i; simp [createConfigs, ih (i + 1)]

theorem createConfigs_map_tplcfg (key : Bytes) (token : Option Bytes)
    (rnd : Nat → Bytes × Bytes) :
    ∀ (tcs : List EboxTplConfig) (i : Nat),
      (createConfigs key token rnd i tcs).map
        (fun c => (⟨c.ctype, c.thresh, c.parts.map (fun p => p.tpart)⟩ : EboxTplConfig)) = tcs := by
  intro tcs
  induction tcs with
  | nil => intro i; simp [createConfigs]
  | cons tc tcs ih =>
      intro i
      rw [createConfigs]
      simp only [List.map_cons, ih (i + 1), createConfig_tplcfg]

/-- The template embedded in a freshly created ebox is exactly the
template it was created from (version-1 templates). -/
theorem ebox_tpl_of_create (tpl : EboxTpl) (K : Bytes) (token : Option Bytes)
    (rnd : Nat → Bytes × Bytes) (hv : tpl.version = 1) :
    ebox_tpl_of (ebox_create tpl K token rnd) = tpl := by
  obtain ⟨v, cs⟩ := tpl
  dsimp only at hv
  subst hv
  simp [ebox_tpl_of, ebox_create, createConfigs_map_tplcfg]

theorem mkRecParts_length (rk : Bytes) :
    ∀ (tps : List EboxTplPart) (j : Nat), (mkRecParts rk j tps).length = tps.length := by
  intro tps
  induction tps with
  | nil => intro j; simp [mkRecParts]
  | cons tp tps ih => intro j; simp [mkRecParts, ih (j + 1)]

theorem mem_createConfigs (key : Bytes) (token : Option Bytes)
    (rnd : Nat → Bytes × Bytes) :
    ∀ (tcs : List EboxTplConfig) (i : Nat) (c : EboxConfig),
      c ∈ createConfigs key token rnd i tcs →
        ∃ tc j, tc ∈ tcs ∧ c = createConfig key token rnd j tc := by
  intro tcs
  induction tcs with
  | nil => intro i c hc; simp [createConfigs] at hc
  | cons tc tcs ih =>
      intro i c hc
      rw [createConfigs] at hc
      rcases List.mem_cons.mp hc with h | h
      · exact ⟨tc, i, by simp, h⟩
      · obtain ⟨tc', j, htc', hc'⟩ := ih (i + 1) c h
        exact ⟨tc', j, by simp [htc'], hc'⟩

theorem wfEboxPartB_mkPart_mkey (tp : EboxTplPart) (key : Bytes)
    (htp : wfTplPartB tp = true) (hk : key.length + 64 < 4294967296) :
    wfEboxPartB (mkPart tp (BoxContent.mkey key)) = true := by
  have hpk : tp.pubkey < 4294967296 := by
    simp only [wfTplPartB, Bool.and_eq_true, decide_eq_true_eq] at htp
    exact htp.1.1.1
  simp [wfEboxPartB, wfEboxPart, mkPart, sealBox, wfSealedBox, wfBoxContent,
    wfBytesLen, putSealedBox, putU8, putU32, putBool, putBoxContent, putBytesV,
    htp, hpk]
  all_goals omega

theorem wfEboxPartB_mkPart_shr (tp : EboxTplPart) (rk : Bytes) (jj : Nat)
    (htp : wfTplPartB tp = true) (hrk : rk.length + 64 < 4294967296)
    (hjj : jj < 4294967296) :
    wfEboxPartB (mkPart tp (BoxContent.shr ⟨rk, jj⟩)) = true := by
  have hpk : tp.pubkey < 4294967296 := by
    simp only [wfTplPartB, Bool.and_eq_true, decide_eq_true_eq] at htp
    exact htp.1.1.1
  simp [wfEboxPartB, wfEboxPart, mkPart, sealBox, wfSealedBox, wfBoxContent,
    wfShare, wfBytesLen, putSealedBox, putU8, putU32, putBool, putBoxContent,
    putBytesV, putShare, htp, hpk, hjj]
  all_goals omega

theorem wfEboxConfigB_createConfig (key : Bytes) (token : Option Bytes)
    (rnd : Nat → Bytes × Bytes) (i : Nat) (tc : EboxTplConfig)
    (htc : wfTplConfigB tc = true)
    (hb : key.length + (rnd i).1.length + optLen token + (rnd i).2.length + 64 <
      4294967296) :
    wfEboxConfigB (createConfig key token rnd i tc) = true := by
  simp only [wfTplConfigB, Bool.and_eq_true, decide_eq_true_eq,
    List.all_eq_true] at htc
  obtain ⟨⟨hnp, hth⟩, hps⟩ := htc
  obtain ⟨ty, th, ps⟩ := tc
  dsimp only at hnp hth hps
  cases ty with
  | primary =>
      simp only [createConfig, wfEboxConfigB, Bool.and_eq_true, decide_eq_true_eq,
        List.all_eq_true]
      refine ⟨⟨⟨by simpa using hnp, hth⟩, ?_⟩, by trivial⟩
      intro q hq
      obtain ⟨tp, htp, hq'⟩ := List.mem_map.mp hq
      rw [← hq']
      exact wfEboxPartB_mkPart_mkey tp key (hps tp htp) (by omega)
  | recovery =>
      simp only [createConfig, wfEboxConfigB, Bool.and_eq_true, decide_eq_true_eq,
        List.all_eq_true]
      refine ⟨⟨⟨by rw [mkRecParts_length]; exact hnp, hth⟩, ?_⟩, ?_⟩
      · intro q hq
        obtain ⟨tp, jj, htp, hj1, hj2, hq'⟩ := mem_mkRecParts _ ps 1 q hq
        rw [hq']
        exact wfEboxPartB_mkPart_shr tp _ jj (hps tp htp) (by omega) (by omega)
      · simp only [aeadEncrypt, wfRecCt, wfBytesLen, wfOptBytesLen,
          Bool.and_eq_true, decide_eq_true_eq]
        refine ⟨⟨⟨⟨by omega, by omega⟩, by omega⟩, ?_⟩, ?_⟩
        · cases htok : token with
          | none => simp [wfOptBytesLen]
          | some v =>
              rw [htok] at hb
              simp only [optLen] at hb
              simp only [wfOptBytesLen, wfBytesLen, decide_eq_true_eq]
              omega
        · simp only [putRecCt, putBool, putBytesV, putOptBytes, putU32]
          cases htok : token with
          | none =>
              rw [htok] at hb
              simp only [optLen] at hb
              simp [putOptBytes]
              omega
          | some v =>
              rw [htok] at hb
              simp only [optLen] at hb
              simp [putOptBytes, putBytesV, putU32]
              omega

theorem wfEbox_create (tpl : EboxTpl) (K : Bytes) (token : Option Bytes)
    (rnd : Nat → Bytes × Bytes)
    (htpl : wfTpl tpl = true) (hrnd : wfCreateRnd K token rnd) :
    wfEbox (ebox_create tpl K token rnd) = true := by
  simp only [wfTpl, Bool.and_eq_true, decide_eq_true_eq, List.all_eq_true] at htpl
  obtain ⟨⟨hv, hnc⟩, hcs⟩ := htpl
  simp only [wfEbox, ebox_create, Bool.and_eq_true, decide_eq_true_eq,
    List.all_eq_true, Option.isNone_none]
  refine ⟨⟨⟨⟨by trivial, ?_⟩, ?_⟩, by trivial⟩, by trivial⟩
  · rw [createConfigs_length]; exact hnc
  · intro c hc
    obtain ⟨tc, j, htc, hc'⟩ := mem_createConfigs K token rnd tpl.configs 0 c hc
    rw [hc']
    exact wfEboxConfigB_createConfig K token rnd j tc (hcs tc htc) (hrnd j)

theorem lt_length_of_getElem?_some {α : Type} {l : List α} {i : Nat} {a : α}
    (h : l[i]? = some a) : i < l.length := by
  by_contra hc
  rw [List.getElem?_eq_none (by omega)] at h
  cases h

theorem findSome?_set_first {α β : Type} (f : α → Option β) :
    ∀ (l : List α) (pi : Nat) (p' : α) (k : β),
      (∀ q ∈ l, f q = none) → f p' = some k → pi < l.length →
      (l.set pi p').findSome? f = some k := by
  intro l
  induction l with
  | nil => intro pi p' k _ _ h; simp at h
  | cons x xs ih =>
      intro pi p' k hnone hp hpi
      cases pi with
      | zero => simp [List.set_cons_zero, List.findSome?_cons, hp]
      | succ pi =>
          have hx : f x = none := hnone x (by simp)
          simp only [List.set_cons_succ, List.findSome?_cons, hx]
          exact ih pi p' k (fun q hq => hnone q (by simp [hq])) hp (by simpa using hpi)

/-! ## Claim theorems: serialization -/

/-- C6: parsing is the left inverse of serialization, for templates and
for eboxes, on well-formed objects. -/
theorem C6_serialization_left_inverse (t : EboxTpl) (e : Ebox)
    (ht : wfTpl t = true) (he : wfEbox e = true) :
    sshbuf_get_ebox_tpl (sshbuf_put_ebox_tpl t) = some (t, []) ∧
    sshbuf_get_ebox (sshbuf_put_ebox e) = some (e, []) := by
  have h1 := sshbuf_get_put_ebox_tpl t [] ht
  have h2 := sshbuf_get_put_ebox e [] he
  rw [List.append_nil] at h1 h2
  exact ⟨h1, h2⟩

def wTpl6 : EboxTpl :=
  ⟨1, [⟨CfgType.primary, 1, [wTplPartA]⟩,
       ⟨CfgType.recovery, 2, [⟨11, some [65], none, some [1, 2]⟩, wTplPartB]⟩]⟩

def wEbox6 : Ebox :=
  ⟨2, [⟨CfgType.primary, 1, [wPartLocked], none⟩,
       ⟨CfgType.recovery, 2,
         [⟨wTplPartA, sealBox 11 (BoxContent.shr wShare1), none, none, none⟩,
          ⟨wTplPartB, sealBox 12 (BoxContent.shr wShare2), none, none, none⟩],
         some wRCt⟩], none, none⟩

/-- Witness for C6 at a concrete template and ebox. -/
theorem C6_witness :
    sshbuf_get_ebox_tpl (sshbuf_put_ebox_tpl wTpl6) = some (wTpl6, []) ∧
    sshbuf_get_ebox (sshbuf_put_ebox wEbox6) = some (wEbox6, []) :=
  C6_serialization_left_inverse wTpl6 wEbox6 (by decide) (by decide)

theorem unseal_part_eq (e : Ebox) (ci pi : Nat) (c : EboxConfig) (p : EboxPart)
    (priv : Nat) (pl : BoxContent)
    (hc : e.configs[ci]? = some c) (hp : c.parts[pi]? = some p)
    (hu : unsealBox priv p.box = some pl) :
    ebox_unseal_part e ci pi priv =
      Except.ok { e with configs := e.configs.set ci { c with parts := c.parts.set pi { p with boxPlain := some pl } } } := by
  simp [ebox_unseal_part, hc, hp, hu]

theorem unlock_after_set (e : Ebox) (ci : Nat) (c' : EboxConfig) (K : Bytes)
    (hkey : e.key = none) (hci : ci < e.configs.length)
    (hfind : c'.parts.findSome? partUnlockKey = some K) (hK : ¬ K.length = 0) :
    ebox_unlock { e with configs := e.configs.set ci c' } ci =
      Except.ok { e with configs := e.configs.set ci c', key := some K } := by
  have h1 : ({ e with configs := e.configs.set ci c' } : Ebox).key = none := hkey
  have h2 : ({ e with configs := e.configs.set ci c' } : Ebox).configs[ci]? = some c' := by
    show (e.configs.set ci c')[ci]? = some c'
    rw [List.getElem?_set]
    simp [hci]
  simp [ebox_unlock, h1, h2, hfind, hK, hkey]

theorem create_unlock_chain (tpl : EboxTpl) (K : Bytes)
    (rnd : Nat → Bytes × Bytes) (ci pi : Nat) (tc : EboxTplConfig)
    (tp : EboxTplPart)
    (hK : K ≠ []) (hci : tpl.configs[ci]? = some tc)
    (hty : tc.ctype = CfgType.primary) (hpi : tc.parts[pi]? = some tp) :
    ∃ e1, ebox_unseal_part (ebox_create tpl K none rnd) ci pi tp.pubkey =
        Except.ok e1 ∧
      ebox_unlock e1 ci = Except.ok { e1 with key := some K } ∧
      ebox_key { e1 with key := some K } = some K := by
  obtain ⟨ty, th, ps⟩ := tc
  dsimp only at hty hpi
  subst hty
  have hilt : ci < tpl.configs.length := lt_length_of_getElem?_some hci
  have hplt : pi < ps.length := lt_length_of_getElem?_some hpi
  have hcfg : (ebox_create tpl K none rnd).configs[ci]? =
      some ⟨CfgType.primary, th, ps.map (fun q => mkPart q (BoxContent.mkey K)), none⟩ := by
    show (createConfigs K none rnd 0 tpl.configs)[ci]? = _
    rw [createConfigs_getElem K none rnd tpl.configs 0 ci, hci]
    rfl
  have hpart : (ps.map (fun q => mkPart q (BoxContent.mkey K)))[pi]? =
      some (mkPart tp (BoxContent.mkey K)) := by
    rw [List.getElem?_map, hpi]
    rfl
  have hunseal : unsealBox tp.pubkey (mkPart tp (BoxContent.mkey K)).box =
      some (BoxContent.mkey K) := by
    simp [mkPart, sealBox, unsealBox]
  have hlen : ci < (ebox_create tpl K none rnd).configs.length := by
    show ci < (createConfigs K none rnd 0 tpl.configs).length
    rw [createConfigs_length]
    exact hilt
  have hfind : ((ps.map (fun q => mkPart q (BoxContent.mkey K))).set pi
      ⟨tp, sealBox tp.pubkey (BoxContent.mkey K), some (BoxContent.mkey K),
        none, none⟩).findSome? partUnlockKey = some K := by
    apply findSome?_set_first
    · intro q hq
      obtain ⟨a, _, ha⟩ := List.mem_map.mp hq
      rw [← ha]
      rfl
    · rfl
    · simpa using hplt
  have hK0 : ¬ K.length = 0 := by
    intro h0
    exact hK (List.eq_nil_of_length_eq_zero h0)
  have hu := unseal_part_eq (ebox_create tpl K none rnd) ci pi
    ⟨CfgType.primary, th, ps.map (fun q => mkPart q (BoxContent.mkey K)), none⟩
    (mkPart tp (BoxContent.mkey K)) tp.pubkey (BoxContent.mkey K)
    hcfg hpart hunseal
  have hl := unlock_after_set (ebox_create tpl K none rnd) ci
    ⟨CfgType.primary, th,
      (ps.map (fun q => mkPart q (BoxContent.mkey K))).set pi
        ⟨tp, sealBox tp.pubkey (BoxContent.mkey K), some (BoxContent.mkey K),
          none, none⟩, none⟩ K rfl hlen hfind hK0
  exact ⟨_, hu, hl, rfl⟩

/-! ## Claim theorem: create / serialize / parse / unseal / unlock -/

/-- C1: creating an ebox from template `T` with key `K`, serializing it
and parsing it back yields the same ebox, whose embedded template
structure matches `T`; unsealing any one part of any PRIMARY config with
the holder's key and calling `ebox_unlock` then makes `ebox_key` return
`K`. -/
theorem C1_create_serialize_unlock (tpl : EboxTpl) (K : Bytes)
    (rnd : Nat → Bytes × Bytes) (ci pi : Nat) (tc : EboxTplConfig)
    (tp : EboxTplPart)
    (htpl : wfTpl tpl = true) (hrnd : wfCreateRnd K none rnd) (hK : K ≠ [])
    (hci : tpl.configs[ci]? = some tc) (hty : tc.ctype = CfgType.primary)
    (hpi : tc.parts[pi]? = some tp) :
    sshbuf_get_ebox (sshbuf_put_ebox (ebox_create tpl K none rnd)) =
      some (ebox_create tpl K none rnd, []) ∧
    ebox_tpl_of (ebox_create tpl K none rnd) = tpl ∧
    ∃ e1, ebox_unseal_part (ebox_create tpl K none rnd) ci pi tp.pubkey =
        Except.ok e1 ∧
      ebox_unlock e1 ci = Except.ok { e1 with key := some K } ∧
      ebox_key { e1 with key := some K } = some K := by
  have hv : tpl.version = 1 := by
    simp only [wfTpl, Bool.and_eq_true, decide_eq_true_eq] at htpl
    exact htpl.1.1
  refine ⟨?_, ebox_tpl_of_create tpl K none rnd hv, ?_⟩
  · have h := sshbuf_get_put_ebox (ebox_create tpl K none rnd) []
      (wfEbox_create tpl K none rnd htpl hrnd)
    rw [List.append_nil] at h
    exact h
  · exact create_unlock_chain tpl K rnd ci pi tc tp hK hci hty hpi

/-! ## The challenge/response protocol run (spec section 4.6) -/

/-- Modelled from the spec: one full remote-recovery interaction for part
`pi` of config `ci`: the requester generates a challenge carrying the
ephemeral key `ephem`, the remote holder (device capability `priv`)
unseals the challenge's part share box and seals the share back to the
ephemeral key, and the requester feeds the response through
`ebox_challenge_response`. -/
def fulfillPart (e : Ebox) (ci pi : Nat) (ephem priv : Nat) : Except Errf Ebox :=
  match ebox_gen_challenge e ci pi ephem with
  | Except.error err => Except.error err
  | Except.ok e1 =>
      match e1.configs[ci]? with
      | none => Except.error Errf.invalidArg
      | some c =>
          match c.parts[pi]? with
          | none => Except.error Errf.invalidArg
          | some p =>
              match p.chal with
              | none => Except.error Errf.noChallenge
              | some ch =>
                  match holderRespond priv p.box ch with
                  | none => Except.error Errf.noKey
                  | some resp =>
                      match ebox_challenge_response e1 ci resp with
                      | Except.error err => Except.error err
                      | Except.ok er => Except.ok er.1

/-- Run the challenge/response interaction for the parts listed in `L`,
in order; `eph pi` is the requester ephemeral key used for part `pi` and
`priv pi` the holder capability for part `pi`. -/
def fulfillRun (e : Ebox) (ci : Nat) (eph priv : Nat → Nat) :
    List Nat → Except Errf Ebox
  | [] => Except.ok e
  | pi :: rest =>
      match fulfillPart e ci pi (eph pi) (priv pi) with
      | Except.error err => Except.error err
      | Except.ok e' => fulfillRun e' ci eph priv rest

/-- A recovery part that has been fulfilled: its share is stored and its
challenge is still outstanding. -/
def fulPart (rk : Bytes) (eph : Nat → Nat) (j : Nat) (tp : EboxTplPart) : EboxPart :=
  ⟨tp, sealBox tp.pubkey (BoxContent.shr ⟨rk, j + 1⟩), none, some ⟨rk, j + 1⟩,
    some ⟨eph j⟩⟩

/-- The parts of a recovery config mid-run: part at absolute index `x` is
fulfilled iff `mem x`. -/
def recPartsState (rk : Bytes) (eph : Nat → Nat) (mem : Nat → Bool) :
    Nat → List EboxTplPart → List EboxPart
  | _, [] => []
  | j, tp :: tps =>
      (if mem j then fulPart rk eph j tp
       else mkPart tp (BoxContent.shr ⟨rk, j + 1⟩)) ::
        recPartsState rk eph mem (j + 1) tps

theorem recPartsState_false (rk : Bytes) (eph : Nat → Nat) :
    ∀ (tps : List EboxTplPart) (j : Nat),
      recPartsState rk eph (fun _ => false) j tps = mkRecParts rk (j + 1) tps := by
  intro tps
  induction tps with
  | nil => intro j; simp [recPartsState, mkRecParts]
  | cons tp tps ih => intro j; simp [recPartsState, mkRecParts, ih (j + 1)]

theorem recPartsState_length (rk : Bytes) (eph : Nat → Nat) (mem : Nat → Bool) :
    ∀ (tps : List EboxTplPart) (j : Nat),
      (recPartsState rk eph mem j tps).length = tps.length := by
  intro tps
  induction tps with
  | nil => intro j; simp [recPartsState]
  | cons tp tps ih => intro j; simp [recPartsState, ih (j + 1)]

theorem recPartsState_getElem (rk : Bytes) (eph : Nat → Nat) (mem : Nat → Bool) :
    ∀ (tps : List EboxTplPart) (j k : Nat),
      (recPartsState rk eph mem j tps)[k]? =
        (tps[k]?).map (fun tp =>
          if mem (j + k) then fulPart rk eph (j + k) tp
          else mkPart tp (BoxContent.shr ⟨rk, j + k + 1⟩)) := by
  intro tps
  induction tps with
  | nil => intro j k; simp [recPartsState]
  | cons tp tps ih =>
      intro j k
      cases k with
      | zero => simp [recPartsState]
      | succ k =>
          rw [recPartsState]
          simp only [List.getElem?_cons_succ]
          rw [ih (j + 1) k]
          have : j + 1 + k = j + (k + 1) := by omega
          rw [this]

theorem recPartsState_congr (rk : Bytes) (eph : Nat → Nat) :
    ∀ (tps : List EboxTplPart) (j : Nat) (mem mem' : Nat → Bool),
      (∀ x, j ≤ x → x < j + tps.length → mem x = mem' x) →
      recPartsState rk eph mem j tps = recPartsState rk eph mem' j tps := by
  intro tps
  induction tps with
  | nil => intro j mem mem' _; simp [recPartsState]
  | cons tp tps ih =>
      intro j mem mem' hag
      rw [recPartsState, recPartsState,
        hag j (le_refl j) (by simp only [List.length_cons]; omega),
        ih (j + 1) mem mem' (fun x hx1 hx2 => hag x (by omega)
          (by simp only [List.length_cons]; omega))]

theorem recPartsState_set (rk : Bytes) (eph : Nat → Nat) :
    ∀ (tps : List EboxTplPart) (j pi : Nat) (mem : Nat → Bool) (tp : EboxTplPart),
      tps[pi]? = some tp →
      (recPartsState rk eph mem j tps).set pi (fulPart rk eph (j + pi) tp) =
        recPartsState rk eph (fun x => x = j + pi || mem x) j tps := by
  intro tps
  induction tps with
  | nil => intro j pi mem tp h; simp at h
  | cons tp0 tps ih =>
      intro j pi mem tp h
      cases pi with
      | zero =>
          simp only [List.getElem?_cons_zero, Option.some.injEq] at h
          subst h
          rw [recPartsState, recPartsState, List.set_cons_zero]
          congr 1
          · simp
          · apply recPartsState_congr
            intro x hx1 _
            have hxne : ¬ (x = j) := by omega
            simp [hxne]
      | succ pi =>
          simp only [List.getElem?_cons_succ] at h
          rw [recPartsState, recPartsState, List.set_cons_succ]
          have hne : (decide (j = j + (pi + 1)) || mem j) = mem j := by
            have hj : ¬ (j = j + (pi + 1)) := by omega
            simp [hj]
          simp only [hne]
          have hih := ih (j + 1) pi mem tp h
          have harr : j + 1 + pi = j + (pi + 1) := by omega
          rw [harr] at hih
          rw [hih]

theorem mem_recPartsState (rk : Bytes) (eph : Nat → Nat) (mem : Nat → Bool) :
    ∀ (tps : List EboxTplPart) (j : Nat) (q : EboxPart),
      q ∈ recPartsState rk eph mem j tps →
      ∃ tp jj, j ≤ jj ∧ jj < j + tps.length ∧
        q = (if mem jj then fulPart rk eph jj tp
             else mkPart tp (BoxContent.shr ⟨rk, jj + 1⟩)) := by
  intro tps
  induction tps with
  | nil => intro j q hq; simp [recPartsState] at hq
  | cons tp tps ih =>
      intro j q hq
      rw [recPartsState] at hq
      rcases List.mem_cons.mp hq with h | h
      · exact ⟨tp, j, le_refl j, by simp only [List.length_cons]; omega, h⟩
      · obtain ⟨tp', jj, hj1, hj2, hq'⟩ := ih (j + 1) q h
        exact ⟨tp', jj, by omega, by simp only [List.length_cons]; omega, hq'⟩

theorem filterMap_recPartsState (rk : Bytes) (eph : Nat → Nat) (mem : Nat → Bool) :
    ∀ (tps : List EboxTplPart) (j : Nat),
      (recPartsState rk eph mem j tps).filterMap (fun p => p.pshare) =
        ((List.range' j tps.length).filter mem).map
          (fun x => (⟨rk, x + 1⟩ : Share)) := by
  intro tps
  induction tps with
  | nil => intro j; simp [recPartsState]
  | cons tp tps ih =>
      intro j
      rw [recPartsState]
      rw [List.length_cons, List.range'_succ]
      cases hm : mem j with
      | true =>
          simp only [if_true, List.filter_cons, hm, List.map_cons,
            List.filterMap_cons]
          rw [ih (j + 1)]
          rfl
      | false =>
          simp only [if_false, List.filter_cons, hm, List.filterMap_cons]
          rw [ih (j + 1)]
          rfl

theorem findIdx?_set_first {α : Type} (f : α → Bool) :
    ∀ (l : List α) (pi : Nat) (p' : α),
      (∀ q ∈ l, f q = false) → f p' = true → pi < l.length →
      ∀ s, List.findIdx? f (l.set pi p') s = some (s + pi) := by
  intro l
  induction l with
  | nil => intro pi p' _ _ h; simp at h
  | cons x xs ih =>
      intro pi p' hnone hp hpi s
      cases pi with
      | zero => simp [List.set_cons_zero, List.findIdx?_cons, hp]
      | succ pi =>
          have hx : f x = false := hnone x (by simp)
          simp only [List.set_cons_succ, List.findIdx?_cons, hx, if_false]
          rw [ih pi p' (fun q hq => hnone q (by simp [hq])) hp
            (by simpa using hpi) (s + 1)]
          have harr : s + 1 + pi = s + (pi + 1) := by omega
          rw [harr]
          simp

/-- Update part `pi` of config `ci` (the shape every engine state
transition produces). -/
def setCfgPart (e : Ebox) (ci pi : Nat) (c : EboxConfig) (p' : EboxPart) : Ebox :=
  { e with configs := e.configs.set ci { c with parts := c.parts.set pi p' } }

theorem fulfillPart_eq (e : Ebox) (ci pi : Nat) (eph priv : Nat) (c : EboxConfig)
    (p : EboxPart) (s : Share)
    (hlen : ci < e.configs.length)
    (hc : e.configs[ci]? = some c) (hp : c.parts[pi]? = some p)
    (hbox : p.box = sealBox priv (BoxContent.shr s))
    (hps : p.pshare = none)
    (hnomatch : ∀ q ∈ c.parts, chalMatches eph q = false) :
    fulfillPart e ci pi eph priv =
      Except.ok (setCfgPart e ci pi c { p with pshare := some s, chal := some ⟨eph⟩ }) := by
  have hplt : pi < c.parts.length := lt_length_of_getElem?_some hp
  have hgen : ebox_gen_challenge e ci pi eph =
      Except.ok (setCfgPart e ci pi c { p with chal := some ⟨eph⟩ }) := by
    simp [ebox_gen_challenge, hc, hp, setCfgPart]
  have hc1 : (setCfgPart e ci pi c { p with chal := some ⟨eph⟩ }).configs[ci]? =
      some { c with parts := c.parts.set pi { p with chal := some ⟨eph⟩ } } := by
    show (e.configs.set ci _)[ci]? = _
    rw [List.getElem?_set]
    simp [hlen]
  have hp1 : ((c.parts.set pi ({ p with chal := some ⟨eph⟩ } : EboxPart)))[pi]? =
      some { p with chal := some ⟨eph⟩ } := by
    rw [List.getElem?_set]
    simp [hplt]
  have hresp : holderRespond priv ({ p with chal := some ⟨eph⟩ } : EboxPart).box ⟨eph⟩ =
      some (sealBox eph (BoxContent.shr s)) := by
    show holderRespond priv p.box ⟨eph⟩ = _
    rw [hbox]
    simp [holderRespond, unsealBox, sealBox]
  have hfidx : (c.parts.set pi ({ p with chal := some ⟨eph⟩ } : EboxPart)).findIdx?
      (chalMatches eph) = some pi := by
    have h := findIdx?_set_first (chalMatches eph) c.parts pi
      { p with chal := some ⟨eph⟩ } hnomatch (by simp [chalMatches]) hplt 0
    simpa using h
  have hcr : ebox_challenge_response
      (setCfgPart e ci pi c { p with chal := some ⟨eph⟩ }) ci
      (sealBox eph (BoxContent.shr s)) =
      Except.ok (setCfgPart e ci pi c { p with pshare := some s, chal := some ⟨eph⟩ }, pi) := by
    rw [ebox_challenge_response.eq_def]
    rw [hc1]
    dsimp only [sealBox]
    rw [hfidx]
    dsimp only
    rw [hp1]
    dsimp only
    simp [hps, setCfgPart, List.set_set]
  rw [fulfillPart, hgen]
  dsimp only
  rw [hc1]
  dsimp only
  rw [hp1]
  dsimp only
  rw [hresp]
  dsimp only
  rw [hcr]

theorem fulfillRun_inv (rk : Bytes) (eph priv : Nat → Nat)
    (ps : List EboxTplPart) (th : Nat) (ct : Option (AEADCt RecPayload)) (ci : Nat)
    (hephinj : ∀ a b, eph a = eph b → a = b)
    (hpriv : ∀ pi tp, ps[pi]? = some tp → priv pi = tp.pubkey) :
    ∀ (L done : List Nat) (e : Ebox),
      (∀ x ∈ L, x < ps.length) → (∀ x ∈ L, x ∉ done) → L.Nodup →
      e.key = none → ci < e.configs.length →
      e.configs[ci]? = some ⟨CfgType.recovery, th,
        recPartsState rk eph (fun x => decide (x ∈ done)) 0 ps, ct⟩ →
      ∃ e', fulfillRun e ci eph priv L = Except.ok e' ∧
        e'.key = none ∧ ci < e'.configs.length ∧
        e'.configs[ci]? = some ⟨CfgType.recovery, th,
          recPartsState rk eph (fun x => decide (x ∈ done ++ L)) 0 ps, ct⟩ := by
  intro L
  induction L with
  | nil =>
      intro done e _ _ _ hkey hlen hcfg
      refine ⟨e, rfl, hkey, hlen, ?_⟩
      simpa only [List.append_nil] using hcfg
  | cons pi L ih =>
      intro done e hbnd hnotdone hnd hkey hlen hcfg
      have hpilt : pi < ps.length := hbnd pi (by simp)
      have hpindone : pi ∉ done := hnotdone pi (by simp)
      cases htp : ps[pi]? with
      | none =>
          exfalso
          rw [List.getElem?_eq_none_iff] at htp
          omega
      | some tp =>
          have hmem0 : decide (pi ∈ done) = false := by simp [hpindone]
          have hpart : (recPartsState rk eph (fun x => decide (x ∈ done)) 0 ps)[pi]? =
              some (mkPart tp (BoxContent.shr ⟨rk, 0 + pi + 1⟩)) := by
            rw [recPartsState_getElem, htp]
            have h0 : ((fun x => decide (x ∈ done)) (0 + pi)) = false := by
              simpa [Nat.zero_add] using hmem0
            simp only [h0]
            simp
          have hnomatch : ∀ q ∈ (recPartsState rk eph (fun x => decide (x ∈ done)) 0 ps),
              chalMatches (eph pi) q = false := by
            intro q hq
            obtain ⟨tp', jj, _, _, hq'⟩ :=
              mem_recPartsState rk eph (fun x => decide (x ∈ done)) ps 0 q hq
            cases hm : decide (jj ∈ done) with
            | true =>
                rw [hm] at hq'
                simp only [if_true, if_pos rfl] at hq'
                rw [hq']
                have hjjdone : jj ∈ done := by simpa using hm
                have hne : eph jj ≠ eph pi := by
                  intro hcon
                  have hj : jj = pi := hephinj jj pi hcon
                  rw [hj] at hjjdone
                  exact hpindone hjjdone
                simp [fulPart, chalMatches, hne]
            | false =>
                rw [hm] at hq'
                simp only [Bool.false_eq_true, if_false] at hq'
                rw [hq']
                simp [mkPart, chalMatches]
          have hstep := fulfillPart_eq e ci pi (eph pi) (priv pi)
            ⟨CfgType.recovery, th, recPartsState rk eph (fun x => decide (x ∈ done)) 0 ps, ct⟩
            (mkPart tp (BoxContent.shr ⟨rk, 0 + pi + 1⟩)) ⟨rk, 0 + pi + 1⟩
            hlen hcfg hpart
            (by simp [mkPart, sealBox, hpriv pi tp htp])
            rfl hnomatch
          have hsetparts : ((recPartsState rk eph (fun x => decide (x ∈ done)) 0 ps).set pi
              { mkPart tp (BoxContent.shr ⟨rk, 0 + pi + 1⟩) with
                pshare := some ⟨rk, 0 + pi + 1⟩, chal := some ⟨eph pi⟩ } : List EboxPart) =
              recPartsState rk eph (fun x => decide (x ∈ done ++ [pi])) 0 ps := by
            have hset := recPartsState_set rk eph ps 0 pi
              (fun x => decide (x ∈ done)) tp htp
            have hfp : (fulPart rk eph (0 + pi) tp : EboxPart) =
                { mkPart tp (BoxContent.shr ⟨rk, 0 + pi + 1⟩) with
                  pshare := some ⟨rk, 0 + pi + 1⟩, chal := some ⟨eph pi⟩ } := by
              simp [fulPart, mkPart, Nat.zero_add]
            rw [hfp] at hset
            rw [hset]
            apply recPartsState_congr
            intro x _ _
            simp only [List.mem_append, List.mem_singleton]
            have : (x = 0 + pi) ↔ (x = pi) := by omega
            by_cases hx : x = pi <;> simp [hx, this]
          rw [fulfillRun, hstep]
          dsimp only
          have hkey1 : (setCfgPart e ci pi
              ⟨CfgType.recovery, th, recPartsState rk eph (fun x => decide (x ∈ done)) 0 ps, ct⟩
              { mkPart tp (BoxContent.shr ⟨rk, 0 + pi + 1⟩) with
                pshare := some ⟨rk, 0 + pi + 1⟩, chal := some ⟨eph pi⟩ }).key = none := hkey
          have hlen1 : ci < (setCfgPart e ci pi
              ⟨CfgType.recovery, th, recPartsState rk eph (fun x => decide (x ∈ done)) 0 ps, ct⟩
              { mkPart tp (BoxContent.shr ⟨rk, 0 + pi + 1⟩) with
                pshare := some ⟨rk, 0 + pi + 1⟩, chal := some ⟨eph pi⟩ }).configs.length := by
            show ci < (e.configs.set ci _).length
            rw [List.length_set]
            exact hlen
          have hcfg1 : (setCfgPart e ci pi
              ⟨CfgType.recovery, th, recPartsState rk eph (fun x => decide (x ∈ done)) 0 ps, ct⟩
              { mkPart tp (BoxContent.shr ⟨rk, 0 + pi + 1⟩) with
                pshare := some ⟨rk, 0 + pi + 1⟩, chal := some ⟨eph pi⟩ }).configs[ci]? =
              some ⟨CfgType.recovery, th,
                recPartsState rk eph (fun x => decide (x ∈ done ++ [pi])) 0 ps, ct⟩ := by
            show (e.configs.set ci _)[ci]? = _
            rw [List.getElem?_set]
            simp only [if_pos rfl, hlen, if_true]
            rw [← hsetparts]
          obtain ⟨e', hrun, hk', hl', hc'⟩ := ih (done ++ [pi]) _
            (fun x hx => hbnd x (by simp [hx]))
            (fun x hx => by
              have hxne : x ≠ pi := by
                intro hxeq
                subst hxeq
                exact (List.nodup_cons.mp hnd).1 hx
              have hxnd : x ∉ done := hnotdone x (by simp [hx])
              simp [hxne, hxnd])
            (List.nodup_cons.mp hnd).2 hkey1 hlen1 hcfg1
          refine ⟨e', hrun, hk', hl', ?_⟩
          rw [hc']
          congr 2
          apply recPartsState_congr
          intro x _ _
          rw [decide_eq_decide]
          simp only [List.mem_append, List.mem_singleton, List.mem_cons]
          tauto

theorem countP_mem_split (a : Nat) (L : List Nat) (ha : a ∉ L) :
    ∀ l : List Nat,
      l.countP (fun x => decide (x ∈ a :: L)) =
        l.count a + l.countP (fun x => decide (x ∈ L)) := by
  intro l
  induction l with
  | nil => simp [List.countP_nil]
  | cons x l ih =>
      rw [List.countP_cons, List.count_cons, List.countP_cons, ih]
      by_cases hxa : x = a
      · subst hxa
        simp [ha]
        omega
      · by_cases hxL : x ∈ L <;> simp [hxa, hxL] <;> omega

theorem length_filter_mem_range (n : Nat) :
    ∀ (L : List Nat), L.Nodup → (∀ x ∈ L, x < n) →
      ((List.range n).filter (fun x => decide (x ∈ L))).length = L.length := by
  intro L
  induction L with
  | nil => intro _ _; simp
  | cons a L ih =>
      intro hnd hbnd
      have hanotin : a ∉ L := (List.nodup_cons.mp hnd).1
      rw [← List.countP_eq_length_filter, countP_mem_split a L hanotin,
        List.count_eq_one_of_mem (List.nodup_range n)
          (List.mem_range.mpr (hbnd a (by simp))),
        List.countP_eq_length_filter,
        ih (List.nodup_cons.mp hnd).2 (fun x hx => hbnd x (by simp [hx]))]
      simp [Nat.add_comm]

theorem sssCombine_const (rk : Bytes) :
    ∀ (l : List Share), l ≠ [] → (∀ s ∈ l, s.secret = rk) → sssCombine l = rk := by
  intro l hne hall
  match l with
  | [] => exact absurd rfl hne
  | s :: rest =>
      have hs : s.secret = rk := hall s (by simp)
      have hrest : rest.all (fun t => t.secret = s.secret) = true := by
        rw [List.all_eq_true]
        intro t ht
        simp only [decide_eq_true_eq]
        rw [hall t (by simp [ht]), hs]
      rw [sssCombine, if_pos hrest, hs]

theorem recover_state_cases (e : Ebox) (ci : Nat) (c : EboxConfig)
    (ct : AEADCt RecPayload)
    (hk : e.key = none) (hc : e.configs[ci]? = some c) (hct : c.recovCt = some ct) :
    (c.thresh ≤ (c.parts.filterMap (fun p => p.pshare)).length →
      ebox_recover e ci =
        match aeadDecrypt
            (sssCombine ((c.parts.filterMap (fun p => p.pshare)).take c.thresh)) ct with
        | none => Except.error Errf.corrupt
        | some pl => Except.ok { e with key := some pl.mkey, rtoken := pl.token }) ∧
    ((c.parts.filterMap (fun p => p.pshare)).length < c.thresh →
      ebox_recover e ci = Except.error Errf.insufficient) := by
  constructor
  · intro hge
    have hnl : ¬ (c.parts.filterMap (fun p => p.pshare)).length < c.thresh := by omega
    simp [ebox_recover, hk, hc, hct, hnl]
  · intro hlt
    simp [ebox_recover, hk, hc, hct, hlt]

/-- C2: for a RECOVERY config of threshold `k`, running the full
challenge/response protocol for a set of exactly `k` distinct parts makes
`ebox_recover` succeed and install the original key `K`; running it for
fewer than `k` parts makes `ebox_recover` fail with `INSUFFICIENT`
(`EINVAL`). -/
theorem C2_recovery_threshold (tpl : EboxTpl) (K : Bytes) (token : Option Bytes)
    (rnd : Nat → Bytes × Bytes) (ci : Nat) (tc : EboxTplConfig)
    (eph priv : Nat → Nat) (L : List Nat)
    (hci : tpl.configs[ci]? = some tc) (hty : tc.ctype = CfgType.recovery)
    (hth : 0 < tc.thresh)
    (hephinj : ∀ a b, eph a = eph b → a = b)
    (hpriv : ∀ pi tp, tc.parts[pi]? = some tp → priv pi = tp.pubkey)
    (hLnd : L.Nodup) (hLbnd : ∀ x ∈ L, x < tc.parts.length) :
    (L.length = tc.thresh →
      ∃ e', fulfillRun (ebox_create tpl K token rnd) ci eph priv L = Except.ok e' ∧
        ebox_recover e' ci = Except.ok { e' with key := some K, rtoken := token } ∧
        ebox_key { e' with key := some K, rtoken := token } = some K) ∧
    (L.length < tc.thresh →
      ∃ e', fulfillRun (ebox_create tpl K token rnd) ci eph priv L = Except.ok e' ∧
        ebox_recover e' ci = Except.error Errf.insufficient) := by
  obtain ⟨ty, th, ps⟩ := tc
  dsimp only at hty hth hpriv hLbnd ⊢
  subst hty
  have hilt : ci < tpl.configs.length := lt_length_of_getElem?_some hci
  have hlen0 : ci < (ebox_create tpl K token rnd).configs.length := by
    show ci < (createConfigs K token rnd 0 tpl.configs).length
    rw [createConfigs_length]
    exact hilt
  have hcfg0 : (ebox_create tpl K token rnd).configs[ci]? =
      some ⟨CfgType.recovery, th,
        recPartsState (rnd ci).1 eph (fun x => decide (x ∈ ([] : List Nat))) 0 ps,
        some (aeadEncrypt (rnd ci).1 (rnd ci).2 ⟨K, token⟩)⟩ := by
    show (createConfigs K token rnd 0 tpl.configs)[ci]? = _
    rw [createConfigs_getElem, hci]
    have hz : 0 + ci = ci := Nat.zero_add ci
    rw [hz]
    have hcc : createConfig K token rnd ci ⟨CfgType.recovery, th, ps⟩ =
        ⟨CfgType.recovery, th, mkRecParts (rnd ci).1 1 ps,
          some (aeadEncrypt (rnd ci).1 (rnd ci).2 ⟨K, token⟩)⟩ := rfl
    have hparts : mkRecParts (rnd ci).1 1 ps =
        recPartsState (rnd ci).1 eph (fun x => decide (x ∈ ([] : List Nat))) 0 ps := by
      rw [recPartsState_congr (rnd ci).1 eph ps 0
        (fun x => decide (x ∈ ([] : List Nat))) (fun _ => false) (by intro x _ _; simp),
        recPartsState_false]
    show some (createConfig K token rnd ci ⟨CfgType.recovery, th, ps⟩) = _
    rw [hcc, hparts]
  obtain ⟨e', hrun, hk', hl', hc'⟩ := fulfillRun_inv (rnd ci).1 eph priv ps th
    (some (aeadEncrypt (rnd ci).1 (rnd ci).2 ⟨K, token⟩)) ci hephinj hpriv L []
    (ebox_create tpl K token rnd) hLbnd (by simp) hLnd rfl hlen0 hcfg0
  simp only [List.nil_append] at hc'
  have hfm : ((⟨CfgType.recovery, th,
      recPartsState (rnd ci).1 eph (fun x => decide (x ∈ L)) 0 ps,
      some (aeadEncrypt (rnd ci).1 (rnd ci).2 ⟨K, token⟩)⟩ : EboxConfig)).parts.filterMap
        (fun p => p.pshare) =
      ((List.range ps.length).filter (fun x => decide (x ∈ L))).map
        (fun x => (⟨(rnd ci).1, x + 1⟩ : Share)) := by
    show (recPartsState (rnd ci).1 eph (fun x => decide (x ∈ L)) 0 ps).filterMap
        (fun p => p.pshare) = _
    rw [filterMap_recPartsState, ← List.range_eq_range']
  have hflen : (((⟨CfgType.recovery, th,
      recPartsState (rnd ci).1 eph (fun x => decide (x ∈ L)) 0 ps,
      some (aeadEncrypt (rnd ci).1 (rnd ci).2 ⟨K, token⟩)⟩ : EboxConfig)).parts.filterMap
        (fun p => p.pshare)).length = L.length := by
    rw [hfm, List.length_map]
    exact length_filter_mem_range ps.length L hLnd hLbnd
  have hcases := recover_state_cases e' ci
    ⟨CfgType.recovery, th, recPartsState (rnd ci).1 eph (fun x => decide (x ∈ L)) 0 ps,
      some (aeadEncrypt (rnd ci).1 (rnd ci).2 ⟨K, token⟩)⟩
    (aeadEncrypt (rnd ci).1 (rnd ci).2 ⟨K, token⟩) hk' hc' rfl
  constructor
  · intro hLk
    refine ⟨e', hrun, ?_, rfl⟩
    have hge : (⟨CfgType.recovery, th,
        recPartsState (rnd ci).1 eph (fun x => decide (x ∈ L)) 0 ps,
        some (aeadEncrypt (rnd ci).1 (rnd ci).2 ⟨K, token⟩)⟩ : EboxConfig).thresh ≤
        (((⟨CfgType.recovery, th,
          recPartsState (rnd ci).1 eph (fun x => decide (x ∈ L)) 0 ps,
          some (aeadEncrypt (rnd ci).1 (rnd ci).2 ⟨K, token⟩)⟩ : EboxConfig)).parts.filterMap
            (fun p => p.pshare)).length := by
      rw [hflen]
      dsimp only
      omega
    have hrec := hcases.1 hge
    have htake : (((⟨CfgType.recovery, th,
        recPartsState (rnd ci).1 eph (fun x => decide (x ∈ L)) 0 ps,
        some (aeadEncrypt (rnd ci).1 (rnd ci).2 ⟨K, token⟩)⟩ : EboxConfig)).parts.filterMap
          (fun p => p.pshare)).take th =
        ((⟨CfgType.recovery, th,
          recPartsState (rnd ci).1 eph (fun x => decide (x ∈ L)) 0 ps,
          some (aeadEncrypt (rnd ci).1 (rnd ci).2 ⟨K, token⟩)⟩ : EboxConfig)).parts.filterMap
            (fun p => p.pshare) := by
      have hlen2 : (((⟨CfgType.recovery, th,
          recPartsState (rnd ci).1 eph (fun x => decide (x ∈ L)) 0 ps,
          some (aeadEncrypt (rnd ci).1 (rnd ci).2 ⟨K, token⟩)⟩ : EboxConfig)).parts.filterMap
            (fun p => p.pshare)).length = th := by
        rw [hflen, hLk]
      rw [← hlen2, List.take_length]
    have hcomb : sssCombine ((((⟨CfgType.recovery, th,
        recPartsState (rnd ci).1 eph (fun x => decide (x ∈ L)) 0 ps,
        some (aeadEncrypt (rnd ci).1 (rnd ci).2 ⟨K, token⟩)⟩ : EboxConfig)).parts.filterMap
          (fun p => p.pshare)).take th) = (rnd ci).1 := by
      rw [htake, hfm]
      apply sssCombine_const
      · intro hnil
        have := congrArg List.length hnil
        rw [List.length_map, length_filter_mem_range ps.length L hLnd hLbnd, hLk] at this
        simp at this
        omega
      · intro s hs
        obtain ⟨x, _, hx⟩ := List.mem_map.mp hs
        rw [← hx]
    have hdec : aeadDecrypt (rnd ci).1
        (aeadEncrypt (rnd ci).1 (rnd ci).2 (⟨K, token⟩ : RecPayload)) =
        some ⟨K, token⟩ := by
      simp [aeadDecrypt, aeadEncrypt]
    rw [hrec]
    dsimp only
    rw [hcomb, hdec]
  · intro hLk
    refine ⟨e', hrun, ?_⟩
    apply hcases.2
    rw [hflen]
    dsimp only
    omega

def w1Tpl : EboxTpl := ⟨1, [⟨CfgType.primary, 1, [wTplPartA]⟩]⟩

def w1Rnd : Nat → Bytes × Bytes := fun _ => ([3, 3], [4])

/-- Witness for C1 at a concrete one-part primary template. -/
theorem C1_witness :
    sshbuf_get_ebox (sshbuf_put_ebox (ebox_create w1Tpl [7, 7] none w1Rnd)) =
      some (ebox_create w1Tpl [7, 7] none w1Rnd, []) ∧
    ebox_tpl_of (ebox_create w1Tpl [7, 7] none w1Rnd) = w1Tpl ∧
    ∃ e1, ebox_unseal_part (ebox_create w1Tpl [7, 7] none w1Rnd) 0 0 wTplPartA.pubkey =
        Except.ok e1 ∧
      ebox_unlock e1 0 = Except.ok { e1 with key := some [7, 7] } ∧
      ebox_key { e1 with key := some [7, 7] } = some [7, 7] :=
  C1_create_serialize_unlock w1Tpl [7, 7] w1Rnd 0 0 ⟨CfgType.primary, 1, [wTplPartA]⟩
    wTplPartA (by decide) (by intro i; simp only [w1Rnd, optLen]; decide)
    (by decide) rfl rfl rfl

def wTplPartC : EboxTplPart := ⟨13, none, none, none⟩

def w2RecCfg : EboxTplConfig := ⟨CfgType.recovery, 2, [wTplPartA, wTplPartB, wTplPartC]⟩

def w2Tpl : EboxTpl := ⟨1, [w2RecCfg]⟩

def w2Rnd : Nat → Bytes × Bytes := fun _ => ([5, 5], [6])

def w2Eph : Nat → Nat := fun pi => 100 + pi

def w2Priv : Nat → Nat := fun pi => 11 + pi

theorem w2Eph_inj : ∀ a b, w2Eph a = w2Eph b → a = b := by
  intro a b h
  simp only [w2Eph] at h
  omega

theorem w2Priv_ok : ∀ pi tp, w2RecCfg.parts[pi]? = some tp → w2Priv pi = tp.pubkey := by
  intro pi tp h
  have hlt : pi < 3 := by
    have := lt_length_of_getElem?_some h
    simpa [w2RecCfg] using this
  interval_cases pi <;>
    (simp [w2RecCfg, wTplPartA, wTplPartB, wTplPartC] at h
     rw [← h]
     rfl)

/-- Witness for C2 at a concrete 2-of-3 recovery template: fulfilling
parts 0 and 2 recovers the key; fulfilling only part 0 is insufficient. -/
theorem C2_witness :
    (∃ e', fulfillRun (ebox_create w2Tpl [9] none w2Rnd) 0 w2Eph w2Priv [0, 2] =
        Except.ok e' ∧
      ebox_recover e' 0 = Except.ok { e' with key := some [9], rtoken := none } ∧
      ebox_key { e' with key := some [9], rtoken := none } = some [9]) ∧
    (∃ e', fulfillRun (ebox_create w2Tpl [9] none w2Rnd) 0 w2Eph w2Priv [0] =
        Except.ok e' ∧
      ebox_recover e' 0 = Except.error Errf.insufficient) :=
  ⟨(C2_recovery_threshold w2Tpl [9] none w2Rnd 0 w2RecCfg w2Eph w2Priv [0, 2]
      rfl rfl (by decide) w2Eph_inj w2Priv_ok (by decide) (by decide)).1 rfl,
   (C2_recovery_threshold w2Tpl [9] none w2Rnd 0 w2RecCfg w2Eph w2Priv [0]
      rfl rfl (by decide) w2Eph_inj w2Priv_ok (by decide) (by decide)).2 (by decide)⟩

/-! ## Stream container (spec section 4.7) -/

/-- Concatenate byte chunks. -/
def catBytes : List Bytes → Bytes
  | [] => []
  | c :: cs => c ++ catBytes cs

def chunksOfGo (csize : Nat) : Nat → Bytes → List Bytes
  | _, [] => []
  | 0, _ => []
  | fuel + 1, p => p.take csize :: chunksOfGo csize fuel (p.drop csize)

/-- Split a plaintext into chunks of `csize` bytes (short final chunk
allowed), spec section 4.7. -/
def chunksOf (csize : Nat) (p : Bytes) : List Bytes := chunksOfGo csize p.length p

theorem chunksOfGo_fuel (csize : Nat) (hcs : 0 < csize) :
    ∀ (f1 : Nat) (p : Bytes) (f2 : Nat), p.length ≤ f1 → p.length ≤ f2 →
      chunksOfGo csize f1 p = chunksOfGo csize f2 p := by
  intro f1
  induction f1 with
  | zero =>
      intro p f2 h1 _
      have : p = [] := by
        cases p with
        | nil => rfl
        | cons x xs => simp at h1
      subst this
      cases f2 <;> rfl
  | succ f1 ih =>
      intro p f2 h1 h2
      cases p with
      | nil => cases f2 <;> rfl
      | cons x xs =>
          cases f2 with
          | zero => simp at h2
          | succ f2 =>
              show ((x :: xs).take csize :: chunksOfGo csize f1 ((x :: xs).drop csize)) =
                ((x :: xs).take csize :: chunksOfGo csize f2 ((x :: xs).drop csize))
              have hd : ((x :: xs).drop csize).length ≤ f1 := by
                rw [List.length_drop, List.length_cons]
                simp only [List.length_cons] at h1
                omega
              have hd2 : ((x :: xs).drop csize).length ≤ f2 := by
                rw [List.length_drop, List.length_cons]
                simp only [List.length_cons] at h2
                omega
              rw [ih ((x :: xs).drop csize) f2 hd hd2]

theorem chunksOf_nil (csize : Nat) : chunksOf csize [] = [] := rfl

theorem chunksOf_cons (csize : Nat) (hcs : 0 < csize) (p : Bytes) (hp : p ≠ []) :
    chunksOf csize p = p.take csize :: chunksOf csize (p.drop csize) := by
  cases p with
  | nil => exact absurd rfl hp
  | cons x xs =>
      show chunksOfGo csize (xs.length + 1) (x :: xs) = _
      rw [chunksOfGo]
      · congr 1
        apply chunksOfGo_fuel csize hcs
        · rw [List.length_drop, List.length_cons]
          omega
        · rfl
      · intro h
        cases h

theorem chunksOf_cat (csize : Nat) (hcs : 0 < csize) :
    ∀ (n : Nat) (p : Bytes), p.length ≤ n → catBytes (chunksOf csize p) = p := by
  intro n
  induction n with
  | zero =>
      intro p hp
      have : p = [] := by
        cases p with
        | nil => rfl
        | cons x xs => simp at hp
      subst this
      rfl
  | succ n ih =>
      intro p hp
      by_cases hpe : p = []
      · subst hpe; rfl
      · rw [chunksOf_cons csize hcs p hpe, catBytes]
        rw [ih (p.drop csize) (by rw [List.length_drop]; omega)]
        exact List.take_append_drop csize p

theorem chunksOf_ne_nil (csize : Nat) (hcs : 0 < csize) :
    ∀ (n : Nat) (p : Bytes), p.length ≤ n → ∀ c ∈ chunksOf csize p, c ≠ [] := by
  intro n
  induction n with
  | zero =>
      intro p hp c hc
      have : p = [] := by
        cases p with
        | nil => rfl
        | cons x xs => simp at hp
      subst this
      simp [chunksOf_nil] at hc
  | succ n ih =>
      intro p hp c hc
      by_cases hpe : p = []
      · subst hpe; simp [chunksOf_nil] at hc
      · rw [chunksOf_cons csize hcs p hpe] at hc
        rcases List.mem_cons.mp hc with h | h
        · subst h
          intro hnil
          rw [List.take_eq_nil_iff] at hnil
          rcases hnil with h0 | h0
          · omega
          · exact hpe h0
        · exact ih (p.drop csize) (by rw [List.length_drop]; omega) c h

/-- Modelled from the spec: one stream chunk
`(seq:u32, len:u32, AEAD(seq_nonce, plaintext, aad=header_digest))`; the
symbolic ciphertext records the session key, the sequence number (the
AEAD nonce), the plaintext and an `intact` flag. -/
structure StreamChunk where
  seq : Nat
  skey : Bytes
  pt : Bytes
  intact : Bool
  deriving DecidableEq, Repr

def encryptChunksFrom (skey : Bytes) : Nat → List Bytes → List StreamChunk
  | _, [] => []
  | s0, c :: cs => ⟨s0, skey, c, true⟩ :: encryptChunksFrom skey (s0 + 1) cs

/-- Modelled from the spec (section 4.7, encrypt mode of
`ebox_stream_put` plus the chunk serializer): split the plaintext into
chunks, AEAD-encrypt each under the session key with nonce = sequence
number, and append the terminator chunk (`len = 0`). -/
def ebox_stream_encrypt (skey : Bytes) (csize : Nat) (p : Bytes) : List StreamChunk :=
  encryptChunksFrom skey 0 (chunksOf csize p) ++
    [⟨(chunksOf csize p).length, skey, [], true⟩]

/-- Modelled from the spec (section 4.7, decrypt mode of
`ebox_stream_get`): verify chunks in order, rejecting a wrong key, an
out-of-order / repeated / missing sequence number or a failed AEAD tag as
`CORRUPT`; plaintext of a chunk is released only after its tag verifies;
a verified terminator ends the stream, and a stream that ends without one
is `CORRUPT`.  Returns the released plaintext and the error, if any. -/
def ebox_stream_decrypt (skey : Bytes) : Nat → List StreamChunk → Bytes × Option Errf
  | _, [] => ([], some Errf.corrupt)
  | exp, c :: cs =>
      if c.skey = skey ∧ c.seq = exp ∧ c.intact = true then
        if c.pt = [] then ([], none)
        else
          let r := ebox_stream_decrypt skey (exp + 1) cs
          (c.pt ++ r.1, r.2)
      else ([], some Errf.corrupt)

theorem decrypt_encrypt_chunks (skey : Bytes) :
    ∀ (cs : List Bytes) (s0 : Nat), (∀ c ∈ cs, c ≠ []) →
      ebox_stream_decrypt skey s0
        (encryptChunksFrom skey s0 cs ++ [⟨s0 + cs.length, skey, [], true⟩]) =
      (catBytes cs, none) := by
  intro cs
  induction cs with
  | nil =>
      intro s0 _
      simp [encryptChunksFrom, ebox_stream_decrypt, catBytes]
  | cons c cs ih =>
      intro s0 hne
      have hc : c ≠ [] := hne c (by simp)
      rw [encryptChunksFrom]
      simp only [List.cons_append]
      rw [ebox_stream_decrypt]
      simp only [if_pos (And.intro rfl (And.intro rfl rfl)), if_neg hc]
      have harr : s0 + (c :: cs).length = (s0 + 1) + cs.length := by
        simp only [List.length_cons]
        omega
      rw [harr] at *
      rw [ih (s0 + 1) (fun d hd => hne d (by simp [hd]))]
      simp [catBytes]

/-- A run of verified data chunks: consecutive sequence numbers from
`exp`, correct key, intact, non-empty plaintext. -/
def goodData (skey : Bytes) : Nat → List StreamChunk → Bool
  | _, [] => true
  | exp, c :: cs =>
      (decide (c.skey = skey) && decide (c.seq = exp) && c.intact &&
        decide (c.pt ≠ [])) && goodData skey (exp + 1) cs

theorem decrypt_good_append_fail (skey : Bytes) :
    ∀ (gs : List StreamChunk) (exp : Nat) (bad : StreamChunk)
      (rest : List StreamChunk),
      goodData skey exp gs = true →
      ¬ (bad.skey = skey ∧ bad.seq = exp + gs.length ∧ bad.intact = true) →
      ebox_stream_decrypt skey exp (gs ++ bad :: rest) =
        (catBytes (gs.map (fun c => c.pt)), some Errf.corrupt) := by
  intro gs
  induction gs with
  | nil =>
      intro exp bad rest _ hbad
      simp only [List.nil_append]
      rw [ebox_stream_decrypt]
      rw [if_neg (by simpa using hbad)]
      rfl
  | cons g gs ih =>
      intro exp bad rest hgood hbad
      rw [goodData, Bool.and_eq_true] at hgood
      obtain ⟨hg, hgs⟩ := hgood
      simp only [Bool.and_eq_true, decide_eq_true_eq] at hg
      obtain ⟨⟨⟨hk, hs⟩, hi⟩, hne⟩ := hg
      simp only [List.cons_append]
      rw [ebox_stream_decrypt]
      rw [if_pos ⟨hk, hs, hi⟩, if_neg hne]
      have harr : exp + (g :: gs).length = (exp + 1) + gs.length := by
        simp only [List.length_cons]
        omega
      rw [harr] at hbad
      rw [ih (exp + 1) bad rest hgs hbad]
      simp [catBytes]

theorem goodData_take (skey : Bytes) :
    ∀ (l : List StreamChunk) (exp i : Nat),
      goodData skey exp l = true → goodData skey exp (l.take i) = true := by
  intro l
  induction l with
  | nil => intro exp i _; simp [goodData]
  | cons c cs ih =>
      intro exp i hgood
      cases i with
      | zero => simp [goodData]
      | succ i =>
          rw [goodData, Bool.and_eq_true] at hgood
          rw [List.take_succ_cons, goodData, Bool.and_eq_true]
          exact ⟨hgood.1, ih (exp + 1) i hgood.2⟩

theorem goodData_encryptFrom (skey : Bytes) :
    ∀ (cs : List Bytes) (s0 : Nat), (∀ c ∈ cs, c ≠ []) →
      goodData skey s0 (encryptChunksFrom skey s0 cs) = true := by
  intro cs
  induction cs with
  | nil => intro s0 _; simp [encryptChunksFrom, goodData]
  | cons c cs ih =>
      intro s0 hne
      rw [encryptChunksFrom, goodData, Bool.and_eq_true]
      constructor
      · simp [hne c (by simp)]
      · exact ih (s0 + 1) (fun d hd => hne d (by simp [hd]))

theorem encryptChunksFrom_length (skey : Bytes) :
    ∀ (cs : List Bytes) (s0 : Nat), (encryptChunksFrom skey s0 cs).length = cs.length := by
  intro cs
  induction cs with
  | nil => intro s0; rfl
  | cons c cs ih => intro s0; simp [encryptChunksFrom, ih (s0 + 1)]

theorem encryptChunksFrom_map_pt (skey : Bytes) :
    ∀ (cs : List Bytes) (s0 : Nat),
      (encryptChunksFrom skey s0 cs).map (fun c => c.pt) = cs := by
  intro cs
  induction cs with
  | nil => intro s0; rfl
  | cons c cs ih => intro s0; simp [encryptChunksFrom, ih (s0 + 1)]

theorem stream_chunk_seq (skey : Bytes) :
    ∀ (cs : List Bytes) (s0 i : Nat) (c : StreamChunk),
      (encryptChunksFrom skey s0 cs ++ [⟨s0 + cs.length, skey, [], true⟩])[i]? =
        some c → c.seq = s0 + i := by
  intro cs
  induction cs with
  | nil =>
      intro s0 i c h
      cases i with
      | zero =>
          simp [encryptChunksFrom] at h
          rw [← h]
          simp
      | succ i => simp [encryptChunksFrom] at h
  | cons d cs ih =>
      intro s0 i c h
      cases i with
      | zero =>
          simp [encryptChunksFrom] at h
          rw [← h]
          simp
      | succ i =>
          rw [encryptChunksFrom] at h
          simp only [List.cons_append, List.getElem?_cons_succ] at h
          have harr : s0 + (d :: cs).length = (s0 + 1) + cs.length := by
            simp only [List.length_cons]
            omega
          rw [harr] at h
          have := ih (s0 + 1) i c h
          omega

/-- C7: stream round trip and integrity.  Decrypting an encrypted stream
yields the plaintext; any verified-good prefix followed by a chunk whose
AEAD does not verify yields `CORRUPT` with only the verified prefix
released; tampering with any chunk (e.g. a truncated final chunk),
omitting a chunk, repeating a chunk or reordering chunks yields
`CORRUPT`. -/
theorem C7_stream_roundtrip_integrity (skey : Bytes) (csize : Nat) (P : Bytes)
    (hcs : 0 < csize) :
    ebox_stream_decrypt skey 0 (ebox_stream_encrypt skey csize P) = (P, none) ∧
    (∀ gs exp bad rest, goodData skey exp gs = true →
      ¬ (bad.skey = skey ∧ bad.seq = exp + gs.length ∧ bad.intact = true) →
      ebox_stream_decrypt skey exp (gs ++ bad :: rest) =
        (catBytes (gs.map (fun c => c.pt)), some Errf.corrupt)) ∧
    (∀ i c, (ebox_stream_encrypt skey csize P)[i]? = some c →
      ebox_stream_decrypt skey 0
        ((ebox_stream_encrypt skey csize P).take i ++
          { c with intact := false } :: (ebox_stream_encrypt skey csize P).drop (i + 1)) =
        (catBytes (((ebox_stream_encrypt skey csize P).take i).map (fun c => c.pt)),
          some Errf.corrupt)) ∧
    (P ≠ [] → ebox_stream_decrypt skey 0 ((ebox_stream_encrypt skey csize P).drop 1) =
      ([], some Errf.corrupt)) ∧
    (P ≠ [] → ebox_stream_decrypt skey 0
        (⟨0, skey, P.take csize, true⟩ :: ebox_stream_encrypt skey csize P) =
      (P.take csize, some Errf.corrupt)) ∧
    (∀ c0 c1 rest, ebox_stream_encrypt skey csize P = c0 :: c1 :: rest →
      ebox_stream_decrypt skey 0 (c1 :: c0 :: rest) = ([], some Errf.corrupt)) := by
  have hnn : ∀ c ∈ chunksOf csize P, c ≠ [] :=
    chunksOf_ne_nil csize hcs P.length P (le_refl _)
  have hcat : catBytes (chunksOf csize P) = P :=
    chunksOf_cat csize hcs P.length P (le_refl _)
  refine ⟨?_, ?_, ?_, ?_, ?_, ?_⟩
  · have h := decrypt_encrypt_chunks skey (chunksOf csize P) 0 hnn
    rw [Nat.zero_add] at h
    rw [ebox_stream_encrypt, h, hcat]
  · intro gs exp bad rest hg hb
    exact decrypt_good_append_fail skey gs exp bad rest hg hb
  · intro i c hic
    have hilen : i < (ebox_stream_encrypt skey csize P).length :=
      lt_length_of_getElem?_some hic
    have hdlen : (ebox_stream_encrypt skey csize P).length =
        (chunksOf csize P).length + 1 := by
      rw [ebox_stream_encrypt, List.length_append, encryptChunksFrom_length]
      rfl
    have hidle : i ≤ (encryptChunksFrom skey 0 (chunksOf csize P)).length := by
      rw [encryptChunksFrom_length]
      omega
    have htake : (ebox_stream_encrypt skey csize P).take i =
        (encryptChunksFrom skey 0 (chunksOf csize P)).take i := by
      rw [ebox_stream_encrypt, List.take_append_eq_append_take]
      have : i - (encryptChunksFrom skey 0 (chunksOf csize P)).length = 0 := by omega
      rw [this]
      simp
    have hgood : goodData skey 0 ((ebox_stream_encrypt skey csize P).take i) = true := by
      rw [htake]
      exact goodData_take skey _ 0 i (goodData_encryptFrom skey (chunksOf csize P) 0 hnn)
    exact decrypt_good_append_fail skey _ 0 _ _ hgood (by simp)
  · intro hP
    rw [ebox_stream_encrypt, chunksOf_cons csize hcs P hP, encryptChunksFrom]
    simp only [List.cons_append, List.drop_succ_cons, List.drop_zero]
    cases hcs2 : chunksOf csize (P.drop csize) with
    | nil =>
        rw [encryptChunksFrom]
        simp [ebox_stream_decrypt]
    | cons d cs =>
        rw [encryptChunksFrom]
        simp [ebox_stream_decrypt]
  · intro hP
    have hne : ¬ (P.take csize = []) := by
      rw [List.take_eq_nil_iff]
      push_neg
      exact ⟨by omega, hP⟩
    rw [ebox_stream_decrypt]
    rw [if_pos ⟨rfl, rfl, rfl⟩, if_neg hne]
    rw [ebox_stream_encrypt, chunksOf_cons csize hcs P hP, encryptChunksFrom]
    simp only [List.cons_append]
    rw [ebox_stream_decrypt]
    rw [if_neg (by intro hcon; exact absurd hcon.2.1 (by simp))]
    simp
  · intro c0 c1 rest heq
    have hc1 : (ebox_stream_encrypt skey csize P)[1]? = some c1 := by
      rw [heq]
      simp
    rw [ebox_stream_encrypt] at hc1
    have hc1a : (encryptChunksFrom skey 0 (chunksOf csize P) ++
        [⟨0 + (chunksOf csize P).length, skey, [], true⟩])[1]? = some c1 := by
      rw [Nat.zero_add]
      exact hc1
    have hseq := stream_chunk_seq skey (chunksOf csize P) 0 1 c1 hc1a
    rw [ebox_stream_decrypt]
    rw [if_neg (by intro hcon; rw [hcon.2.1] at hseq; omega)]

/-- Witness for C7 at a concrete 3-byte plaintext, chunk size 2. -/
theorem C7_witness :
    ebox_stream_decrypt [1] 0 (ebox_stream_encrypt [1] 2 [5, 6, 7]) =
      ([5, 6, 7], none) ∧
    ebox_stream_decrypt [1] 0 ([] ++ (⟨5, [1], [9], true⟩ : StreamChunk) :: []) =
      ([], some Errf.corrupt) ∧
    ebox_stream_decrypt [1] 0 ((ebox_stream_encrypt [1] 2 [5, 6, 7]).take 1 ++
      (⟨1, [1], [7], false⟩ : StreamChunk) ::
        (ebox_stream_encrypt [1] 2 [5, 6, 7]).drop 2) = ([5, 6], some Errf.corrupt) ∧
    ebox_stream_decrypt [1] 0 ((ebox_stream_encrypt [1] 2 [5, 6, 7]).drop 1) =
      ([], some Errf.corrupt) ∧
    ebox_stream_decrypt [1] 0
      ((⟨0, [1], [5, 6], true⟩ : StreamChunk) :: ebox_stream_encrypt [1] 2 [5, 6, 7]) =
      ([5, 6], some Errf.corrupt) ∧
    ebox_stream_decrypt [1] 0
      ((⟨1, [1], [7], true⟩ : StreamChunk) :: (⟨0, [1], [5, 6], true⟩ : StreamChunk) ::
        [(⟨2, [1], [], true⟩ : StreamChunk)]) = ([], some Errf.corrupt) :=
  ⟨(C7_stream_roundtrip_integrity [1] 2 [5, 6, 7] (by decide)).1,
   ((C7_stream_roundtrip_integrity [1] 2 [5, 6, 7] (by decide)).2.1 [] 0
      ⟨5, [1], [9], true⟩ [] rfl (by decide)).trans (by decide),
   ((C7_stream_roundtrip_integrity [1] 2 [5, 6, 7] (by decide)).2.2.1 1
      ⟨1, [1], [7], true⟩ (by decide)).trans (by decide),
   (C7_stream_roundtrip_integrity [1] 2 [5, 6, 7] (by decide)).2.2.2.1 (by decide),
   ((C7_stream_roundtrip_integrity [1] 2 [5, 6, 7] (by decide)).2.2.2.2.1
      (by decide)).trans (by decide),
   (C7_stream_roundtrip_integrity [1] 2 [5, 6, 7] (by decide)).2.2.2.2.2
      ⟨0, [1], [5, 6], true⟩ ⟨1, [1], [7], true⟩ [⟨2, [1], [], true⟩] (by decide)⟩

/-! ## pivy-zfs `unlock_or_recover`, embedded from the source file

The function walks the ebox's configs; for each PRIMARY config it calls
`local_unlock` on the config's first part: an error that is not a
`NotFoundError` is returned immediately, a `NotFoundError` moves on to
the next config, and success leads to `ebox_unlock` (whose error is
returned, otherwise `*recovered = B_FALSE` and done).  Only when that
loop falls through does the function build the interactive question;
each prompt selects a config: a PRIMARY selection retries `local_unlock`
(any failure warns and re-prompts), a RECOVERY selection runs
`interactive_recovery` (failure warns and re-prompts) and then
`ebox_recover` (error returned; success sets `*recovered = B_TRUE`). -/

/-- Outcome of one `local_unlock` call. -/
inductive LURes
  | ok
  | notFound
  | err (e : Nat)
  deriving DecidableEq, Repr

/-- Outcome of `unlock_or_recover`: an error, completion with the final
value of `*recovered`, or still waiting at the prompt (the real code
blocks in `question_prompt`; `pending` models running out of scripted
user inputs). -/
inductive UORes
  | err (e : Nat)
  | done (recovered : Bool)
  | pending
  deriving DecidableEq, Repr

/-- A config of the ebox as seen by `unlock_or_recover`: its identity
and its template config type. -/
structure ZConfig where
  idx : Nat
  ctype : CfgType
  deriving DecidableEq, Repr

/-- The first `while` loop of `unlock_or_recover` (source lines 270-291):
try `local_unlock` + `ebox_unlock` on every PRIMARY config in order.
`none` means the loop fell through to the interactive part. -/
def uorPhase1 (lu : Nat → LURes) (unlockRes : Nat → Option Nat) :
    List ZConfig → Option UORes
  | [] => none
  | c :: cs =>
      if c.ctype = CfgType.primary then
        match lu c.idx with
        | LURes.err e => some (UORes.err e)
        | LURes.notFound => uorPhase1 lu unlockRes cs
        | LURes.ok =>
            match unlockRes c.idx with
            | some e => some (UORes.err e)
            | none => some (UORes.done false)
      else uorPhase1 lu unlockRes cs

/-- The interactive `again` loop of `unlock_or_recover` (source lines
309-341), driven by the scripted user selections `prompts`; `t` counts
the attempts (indexing the per-attempt oracles `luI` and `recovOK`). -/
def uorPhase2 (luI : Nat → LURes) (unlockRes : Nat → Option Nat)
    (recovOK : Nat → Bool) (recovRes : Nat → Option Nat) :
    Nat → List ZConfig → UORes
  | _, [] => UORes.pending
  | t, c :: prompts =>
      if c.ctype = CfgType.primary then
        match luI t with
        | LURes.ok =>
            match unlockRes c.idx with
            | some e => UORes.err e
            | none => UORes.done false
        | _ => uorPhase2 luI unlockRes recovOK recovRes (t + 1) prompts
      else
        if recovOK t then
          match recovRes c.idx with
          | some e => UORes.err e
          | none => UORes.done true
        else uorPhase2 luI unlockRes recovOK recovRes (t + 1) prompts

/-- `unlock_or_recover`, embedded from pivy-zfs.  `lu` and `luI` give the
outcomes of `local_unlock` in the first loop (per config) and in the
interactive loop (per attempt); `unlockRes` / `recovRes` give the
outcomes of `ebox_unlock` / `ebox_recover` per config; `recovOK` gives
the outcome of `interactive_recovery` per attempt. -/
def unlock_or_recover (cfgs : List ZConfig) (lu luI : Nat → LURes)
    (unlockRes : Nat → Option Nat) (recovOK : Nat → Bool)
    (recovRes : Nat → Option Nat) (prompts : List ZConfig) : UORes :=
  match uorPhase1 lu unlockRes cfgs with
  | some r => r
  | none => uorPhase2 luI unlockRes recovOK recovRes 0 prompts

/-- The interactive loop re-prompts after this step. -/
def p2Continues (luI : Nat → LURes) (recovOK : Nat → Bool) (c : ZConfig)
    (t : Nat) : Prop :=
  (c.ctype = CfgType.primary ∧ luI t ≠ LURes.ok) ∨
    (c.ctype = CfgType.recovery ∧ recovOK t = false)

theorem uorPhase1_skip (lu : Nat → LURes) (unlockRes : Nat → Option Nat) :
    ∀ (pre : List ZConfig) (rest : List ZConfig),
      (∀ c' ∈ pre, c'.ctype = CfgType.primary → lu c'.idx = LURes.notFound) →
      uorPhase1 lu unlockRes (pre ++ rest) = uorPhase1 lu unlockRes rest := by
  intro pre
  induction pre with
  | nil => intro rest _; rfl
  | cons c cs ih =>
      intro rest hpre
      rw [List.cons_append, uorPhase1]
      by_cases hty : c.ctype = CfgType.primary
      · rw [if_pos hty, hpre c (by simp) hty]
        exact ih rest (fun c' hc' => hpre c' (by simp [hc']))
      · rw [if_neg hty]
        exact ih rest (fun c' hc' => hpre c' (by simp [hc']))

theorem uorPhase1_none_iff (lu : Nat → LURes) (unlockRes : Nat → Option Nat) :
    ∀ (cfgs : List ZConfig),
      uorPhase1 lu unlockRes cfgs = none ↔
        ∀ c ∈ cfgs, c.ctype = CfgType.primary → lu c.idx = LURes.notFound := by
  intro cfgs
  induction cfgs with
  | nil => simp [uorPhase1]
  | cons c cs ih =>
      rw [uorPhase1]
      by_cases hty : c.ctype = CfgType.primary
      · rw [if_pos hty]
        cases hlu : lu c.idx with
        | ok =>
            cases unlockRes c.idx <;>
              (simp only []
               constructor
               · intro h; cases h
               · intro h
                 have := h c (by simp) hty
                 rw [hlu] at this
                 cases this)
        | notFound =>
            rw [ih]
            constructor
            · intro h c' hc' hty'
              rcases List.mem_cons.mp hc' with h0 | h0
              · rw [h0, hlu]
              · exact h c' h0 hty'
            · intro h c' hc' hty'
              exact h c' (by simp [hc']) hty'
        | err e =>
            simp only []
            constructor
            · intro h; cases h
            · intro h
              have := h c (by simp) hty
              rw [hlu] at this
              cases this
      · rw [if_neg hty, ih]
        constructor
        · intro h c' hc' hty'
          rcases List.mem_cons.mp hc' with h0 | h0
          · rw [h0] at hty'; exact absurd hty' hty
          · exact h c' h0 hty'
        · intro h c' hc' hty'
          exact h c' (by simp [hc']) hty'

theorem uorPhase1_not_done_true (lu : Nat → LURes) (unlockRes : Nat → Option Nat) :
    ∀ (cfgs : List ZConfig),
      uorPhase1 lu unlockRes cfgs ≠ some (UORes.done true) := by
  intro cfgs
  induction cfgs with
  | nil => intro h; cases h
  | cons c cs ih =>
      rw [uorPhase1]
      by_cases hty : c.ctype = CfgType.primary
      · rw [if_pos hty]
        cases lu c.idx with
        | ok =>
            cases unlockRes c.idx <;> (intro h; simp at h)
        | notFound => exact ih
        | err e => intro h; simp at h
      · rw [if_neg hty]
        exact ih

/-- The interactive loop produces `*recovered = B_TRUE` precisely when
some prompt `k` selects a RECOVERY config, `interactive_recovery` and
`ebox_recover` both succeed there, and every earlier prompt merely
re-prompted. -/
def P2Spec (luI : Nat → LURes) (recovOK : Nat → Bool)
    (recovRes : Nat → Option Nat) (prompts : List ZConfig) (t : Nat) : Prop :=
  ∃ k c', prompts[k]? = some c' ∧ c'.ctype = CfgType.recovery ∧
    recovOK (t + k) = true ∧ recovRes c'.idx = none ∧
    ∀ s cs, s < k → prompts[s]? = some cs → p2Continues luI recovOK cs (t + s)

theorem uorPhase2_done_true (luI : Nat → LURes) (unlockRes : Nat → Option Nat)
    (recovOK : Nat → Bool) (recovRes : Nat → Option Nat) :
    ∀ (prompts : List ZConfig) (t : Nat),
      uorPhase2 luI unlockRes recovOK recovRes t prompts = UORes.done true ↔
        P2Spec luI recovOK recovRes prompts t := by
  intro prompts
  induction prompts with
  | nil =>
      intro t
      constructor
      · intro h; cases h
      · rintro ⟨k, c', hk, _⟩
        simp at hk
  | cons c ps ih =>
      intro t
      have hshift : P2Spec luI recovOK recovRes ps (t + 1) →
          (¬ p2Continues luI recovOK c t → False) →
          P2Spec luI recovOK recovRes (c :: ps) t := by
        rintro ⟨k, c', hk, hrec, hok, hres, hcont⟩ hc0
        refine ⟨k + 1, c', by simpa using hk, hrec, ?_, hres, ?_⟩
        · have harr : t + (k + 1) = t + 1 + k := by omega
          rw [harr]
          exact hok
        · intro s cs hs hcs
          cases s with
          | zero =>
              simp only [List.getElem?_cons_zero, Option.some.injEq] at hcs
              subst hcs
              by_contra hno
              exact hc0 hno
          | succ s =>
              simp only [List.getElem?_cons_succ] at hcs
              have harr : t + (s + 1) = t + 1 + s := by omega
              rw [harr]
              exact hcont s cs (by omega) hcs
      have hunshift : P2Spec luI recovOK recovRes (c :: ps) t →
          (∀ hk0 : c.ctype = CfgType.recovery ∧ recovOK t = true ∧
            recovRes c.idx = none, False) →
          P2Spec luI recovOK recovRes ps (t + 1) := by
        rintro ⟨k, c', hk, hrec, hok, hres, hcont⟩ hnot0
        cases k with
        | zero =>
            simp only [List.getElem?_cons_zero, Option.some.injEq] at hk
            subst hk
            exact absurd ⟨hrec, by simpa using hok, hres⟩ (fun h => hnot0 h)
        | succ k =>
            simp only [List.getElem?_cons_succ] at hk
            refine ⟨k, c', hk, hrec, ?_, hres, ?_⟩
            · have harr : t + 1 + k = t + (k + 1) := by omega
              rw [harr]
              exact hok
            · intro s cs hs hcs
              have harr : t + 1 + s = t + (s + 1) := by omega
              rw [harr]
              exact hcont (s + 1) cs (by omega) (by simpa using hcs)
      rw [uorPhase2]
      by_cases hty : c.ctype = CfgType.primary
      · rw [if_pos hty]
        cases hl : luI t with
        | ok =>
            have hnorhs : ¬ P2Spec luI recovOK recovRes (c :: ps) t := by
              rintro ⟨k, c', hk, hrec, hok, hres, hcont⟩
              cases k with
              | zero =>
                  simp only [List.getElem?_cons_zero, Option.some.injEq] at hk
                  subst hk
                  rw [hty] at hrec
                  cases hrec
              | succ k =>
                  have hc := hcont 0 c (by omega) (by simp)
                  rcases hc with ⟨_, hne⟩ | ⟨hr, _⟩
                  · rw [Nat.add_zero] at hne
                    exact hne hl
                  · rw [hty] at hr
                    cases hr
            cases unlockRes c.idx <;>
              (constructor
               · intro h; cases h
               · intro h; exact absurd h hnorhs)
        | notFound =>
            rw [ih (t + 1)]
            constructor
            · intro h
              exact hshift h (fun hc0 => hc0 (Or.inl ⟨hty, by rw [hl]; intro hc; cases hc⟩))
            · intro h
              refine hunshift h ?_
              rintro ⟨hr, _⟩
              rw [hty] at hr
              cases hr
        | err e =>
            rw [ih (t + 1)]
            constructor
            · intro h
              exact hshift h (fun hc0 => hc0 (Or.inl ⟨hty, by rw [hl]; intro hc; cases hc⟩))
            · intro h
              refine hunshift h ?_
              rintro ⟨hr, _⟩
              rw [hty] at hr
              cases hr
      · rw [if_neg hty]
        have hrty : c.ctype = CfgType.recovery := by
          cases hc : c.ctype
          · exact absurd hc hty
          · rfl
        cases hro : recovOK t with
        | true =>
            cases hrr : recovRes c.idx with
            | none =>
                constructor
                · intro _
                  exact ⟨0, c, by simp, hrty, by simpa using hro, hrr,
                    fun s cs hs _ => absurd hs (by omega)⟩
                · intro _; rfl
            | some e =>
                constructor
                · intro h; cases h
                · rintro ⟨k, c', hk, hrec, hok, hres, hcont⟩
                  cases k with
                  | zero =>
                      simp only [List.getElem?_cons_zero, Option.some.injEq] at hk
                      subst hk
                      rw [hrr] at hres
                      cases hres
                  | succ k =>
                      have hc := hcont 0 c (by omega) (by simp)
                      rcases hc with ⟨hp, _⟩ | ⟨_, hfalse⟩
                      · exact absurd hp hty
                      · rw [Nat.add_zero] at hfalse
                        rw [hro] at hfalse
                        cases hfalse
        | false =>
            simp only [Bool.false_eq_true, if_false]
            rw [ih (t + 1)]
            constructor
            · intro h
              exact hshift h (fun hc0 => hc0 (Or.inr ⟨hrty, hro⟩))
            · intro h
              refine hunshift h ?_
              rintro ⟨_, hok0, _⟩
              rw [hro] at hok0
              cases hok0

/-- C9: `unlock_or_recover` tries local unseal-and-unlock on the PRIMARY
configs in order before ever offering recovery: a `local_unlock` error
that is not a `NotFoundError` aborts immediately, a `NotFoundError` moves
to the next config, the interactive path is reached exactly when every
PRIMARY config failed with `NotFoundError`, and `*recovered` is `B_TRUE`
exactly when the interactive recovery path produced the key. -/
theorem C9_unlock_or_recover_order (cfgs : List ZConfig) (lu luI : Nat → LURes)
    (unlockRes : Nat → Option Nat) (recovOK : Nat → Bool)
    (recovRes : Nat → Option Nat) (prompts : List ZConfig) :
    (∀ pre c post e, cfgs = pre ++ c :: post →
      (∀ c' ∈ pre, c'.ctype = CfgType.primary → lu c'.idx = LURes.notFound) →
      c.ctype = CfgType.primary → lu c.idx = LURes.err e →
      unlock_or_recover cfgs lu luI unlockRes recovOK recovRes prompts =
        UORes.err e) ∧
    (∀ pre c post, cfgs = pre ++ c :: post →
      (∀ c' ∈ pre, c'.ctype = CfgType.primary → lu c'.idx = LURes.notFound) →
      c.ctype = CfgType.primary → lu c.idx = LURes.ok → unlockRes c.idx = none →
      unlock_or_recover cfgs lu luI unlockRes recovOK recovRes prompts =
        UORes.done false) ∧
    ((∀ c ∈ cfgs, c.ctype = CfgType.primary → lu c.idx = LURes.notFound) →
      unlock_or_recover cfgs lu luI unlockRes recovOK recovRes prompts =
        uorPhase2 luI unlockRes recovOK recovRes 0 prompts) ∧
    (unlock_or_recover cfgs lu luI unlockRes recovOK recovRes prompts =
        UORes.done true ↔
      (∀ c ∈ cfgs, c.ctype = CfgType.primary → lu c.idx = LURes.notFound) ∧
        P2Spec luI recovOK recovRes prompts 0) := by
  refine ⟨?_, ?_, ?_, ?_⟩
  · intro pre c post e hsplit hpre hty hlu
    rw [unlock_or_recover, hsplit, uorPhase1_skip lu unlockRes pre (c :: post) hpre,
      uorPhase1, if_pos hty, hlu]
  · intro pre c post hsplit hpre hty hlu hun
    rw [unlock_or_recover, hsplit, uorPhase1_skip lu unlockRes pre (c :: post) hpre,
      uorPhase1, if_pos hty, hlu, hun]
  · intro hall
    rw [unlock_or_recover, (uorPhase1_none_iff lu unlockRes cfgs).mpr hall]
  · cases hp1 : uorPhase1 lu unlockRes cfgs with
    | some r =>
        simp only [unlock_or_recover, hp1]
        constructor
        · intro h
          rw [h] at hp1
          exact absurd hp1 (uorPhase1_not_done_true lu unlockRes cfgs)
        · rintro ⟨hall, _⟩
          rw [(uorPhase1_none_iff lu unlockRes cfgs).mpr hall] at hp1
          cases hp1
    | none =>
        simp only [unlock_or_recover, hp1]
        rw [uorPhase2_done_true luI unlockRes recovOK recovRes prompts 0]
        constructor
        · intro h
          exact ⟨(uorPhase1_none_iff lu unlockRes cfgs).mp hp1, h⟩
        · rintro ⟨_, h⟩
          exact h

def w9Cfgs : List ZConfig := [⟨0, CfgType.primary⟩, ⟨1, CfgType.recovery⟩, ⟨2, CfgType.primary⟩]

def w9LuA : Nat → LURes := fun i => if i = 0 then LURes.notFound else LURes.err 7

def w9LuB : Nat → LURes := fun i => if i = 0 then LURes.ok else LURes.notFound

def w9LuN : Nat → LURes := fun _ => LURes.notFound

def w9None : Nat → Option Nat := fun _ => none

def w9ROK : Nat → Bool := fun _ => true

def w9Prompts : List ZConfig := [⟨1, CfgType.recovery⟩]

/-- Witness for C9 at concrete configs and oracle outcomes: a hard
`local_unlock` failure on the second PRIMARY config aborts; a successful
first PRIMARY config finishes with `recovered = FALSE`; when every
PRIMARY config reports `NotFoundError`, selecting the recovery config
interactively finishes with `recovered = TRUE`. -/
theorem C9_witness :
    unlock_or_recover w9Cfgs w9LuA w9LuN w9None w9ROK w9None w9Prompts =
      UORes.err 7 ∧
    unlock_or_recover w9Cfgs w9LuB w9LuN w9None w9ROK w9None w9Prompts =
      UORes.done false ∧
    unlock_or_recover w9Cfgs w9LuN w9LuN w9None w9ROK w9None w9Prompts =
      UORes.done true :=
  ⟨(C9_unlock_or_recover_order w9Cfgs w9LuA w9LuN w9None w9ROK w9None w9Prompts).1
      [⟨0, CfgType.primary⟩, ⟨1, CfgType.recovery⟩] ⟨2, CfgType.primary⟩ [] 7
      rfl (by decide) rfl (by decide),
   (C9_unlock_or_recover_order w9Cfgs w9LuB w9LuN w9None w9ROK w9None w9Prompts).2.1
      [] ⟨0, CfgType.primary⟩ [⟨1, CfgType.recovery⟩, ⟨2, CfgType.primary⟩]
      rfl (by decide) rfl (by decide) rfl,
   (C9_unlock_or_recover_order w9Cfgs w9LuN w9LuN w9None w9ROK w9None w9Prompts).2.2.2.mpr
      ⟨by decide, 0, ⟨1, CfgType.recovery⟩, rfl, rfl, rfl, rfl,
        fun s cs hs _ => absurd hs (by omega)⟩⟩

/-! ## cmd_genopt (pivy-zfs zfs-create / zpool-create) -/

/-- The base64 alphabet as in `sshbuf_dtob64`: sextet values 0..63 map to
the ASCII codes of A-Z, a-z, 0-9, `+`, `/`; the pad marker 64 maps to
the ASCII code of `=`. -/
def b64chr (n : Nat) : Nat :=
  if n < 26 then 65 + n
  else if n < 52 then 97 + (n - 26)
  else if n < 62 then 48 + (n - 52)
  else if n = 62 then 43
  else if n = 63 then 47
  else 61

def b64inv (c : Nat) : Nat :=
  if 65 ≤ c ∧ c ≤ 90 then c - 65
  else if 97 ≤ c ∧ c ≤ 122 then 26 + (c - 97)
  else if 48 ≤ c ∧ c ≤ 57 then 52 + (c - 48)
  else if c = 43 then 62
  else if c = 47 then 63
  else 64

/-- Group the input bytes three at a time into four sextets, padding the
last group with the marker 64. -/
def b64sextets : Bytes → List Nat
  | [] => []
  | [a] => [a / 4, a % 4 * 16, 64, 64]
  | [a, b] => [a / 4, a % 4 * 16 + b / 16, b % 16 * 4, 64]
  | a :: b :: c :: rest =>
      a / 4 :: (a % 4 * 16 + b / 16) :: (b % 16 * 4 + c / 64) :: c % 64 ::
        b64sextets rest

/-- `sshbuf_dtob64`: base64-encode a buffer, as ASCII codes. -/
def sshbuf_dtob64 (d : Bytes) : Bytes := (b64sextets d).map b64chr

def b64unsex : List Nat → Option Bytes
  | [] => some []
  | s0 :: s1 :: s2 :: s3 :: rest =>
      if s0 < 64 ∧ s1 < 64 then
        if s2 = 64 then
          if s3 = 64 ∧ rest = [] ∧ s1 % 16 = 0 then some [s0 * 4 + s1 / 16]
          else none
        else if s2 < 64 then
          if s3 = 64 then
            if rest = [] ∧ s2 % 4 = 0 then
              some [s0 * 4 + s1 / 16, s1 % 16 * 16 + s2 / 4]
            else none
          else if s3 < 64 then
            match b64unsex rest with
            | none => none
            | some tl =>
                some ((s0 * 4 + s1 / 16) :: (s1 % 16 * 16 + s2 / 4) ::
                  (s2 % 4 * 64 + s3) :: tl)
          else none
        else none
      else none
  | _ => none

/-- `sshbuf_b64tod`: base64-decode an ASCII buffer. -/
def sshbuf_b64tod (b : Bytes) : Option Bytes := b64unsex (b.map b64inv)

theorem b64inv_b64chr : ∀ s < 65, b64inv (b64chr s) = s := by decide

theorem b64tod_dtob64 : ∀ d : Bytes, (∀ x ∈ d, x < 256) →
    sshbuf_b64tod (sshbuf_dtob64 d) = some d
  | [], _ => rfl
  | [a], h => by
      have ha : a < 256 := h a (by simp)
      simp only [sshbuf_b64tod, sshbuf_dtob64, b64sextets, List.map_cons,
        List.map_nil]
      rw [b64inv_b64chr (a / 4) (by omega), b64inv_b64chr (a % 4 * 16) (by omega),
        b64inv_b64chr 64 (by omega)]
      simp only [b64unsex]
      rw [if_pos ⟨(by omega : a / 4 < 64), (by omega : a % 4 * 16 < 64)⟩,
        if_pos True.intro,
        if_pos ⟨True.intro, True.intro, (by omega : a % 4 * 16 % 16 = 0)⟩]
      have hx : a / 4 * 4 + a % 4 * 16 / 16 = a := by omega
      rw [hx]
  | [a, b], h => by
      have ha : a < 256 := h a (by simp)
      have hb : b < 256 := h b (by simp)
      simp only [sshbuf_b64tod, sshbuf_dtob64, b64sextets, List.map_cons,
        List.map_nil]
      rw [b64inv_b64chr (a / 4) (by omega),
        b64inv_b64chr (a % 4 * 16 + b / 16) (by omega),
        b64inv_b64chr (b % 16 * 4) (by omega), b64inv_b64chr 64 (by omega)]
      simp only [b64unsex]
      rw [if_pos ⟨(by omega : a / 4 < 64), (by omega : a % 4 * 16 + b / 16 < 64)⟩,
        if_neg (by omega : ¬ b % 16 * 4 = 64), if_pos (by omega : b % 16 * 4 < 64),
        if_pos True.intro, if_pos ⟨True.intro, (by omega : b % 16 * 4 % 4 = 0)⟩]
      have hx : a / 4 * 4 + (a % 4 * 16 + b / 16) / 16 = a := by omega
      have hy : (a % 4 * 16 + b / 16) % 16 * 16 + b % 16 * 4 / 4 = b := by omega
      rw [hx, hy]
  | a :: b :: c :: rest, h => by
      have ha : a < 256 := h a (by simp)
      have hb : b < 256 := h b (by simp)
      have hc : c < 256 := h c (by simp)
      have ih := b64tod_dtob64 rest (fun x hx => h x (by simp [hx]))
      simp only [sshbuf_b64tod, sshbuf_dtob64] at ih ⊢
      rw [b64sextets]
      simp only [List.map_cons]
      rw [b64inv_b64chr (a / 4) (by omega),
        b64inv_b64chr (a % 4 * 16 + b / 16) (by omega),
        b64inv_b64chr (b % 16 * 4 + c / 64) (by omega),
        b64inv_b64chr (c % 64) (by omega)]
      simp only [b64unsex]
      rw [if_pos ⟨(by omega : a / 4 < 64), (by omega : a % 4 * 16 + b / 16 < 64)⟩,
        if_neg (by omega : ¬ b % 16 * 4 + c / 64 = 64),
        if_pos (by omega : b % 16 * 4 + c / 64 < 64),
        if_neg (by omega : ¬ c % 64 = 64), if_pos (by omega : c % 64 < 64), ih]
      have hx : a / 4 * 4 + (a % 4 * 16 + b / 16) / 16 = a := by omega
      have hy : (a % 4 * 16 + b / 16) % 16 * 16 + (b % 16 * 4 + c / 64) / 4 = b := by
        omega
      have hz : (b % 16 * 4 + c / 64) % 4 * 64 + c % 64 = c := by omega
      rw [hx, hy, hz]

def litBytes (s : String) : Bytes := s.data.map Char.toNat

/-- The observable effects of `cmd_genopt`: the argument vector passed to
the child `zfs`/`zpool` process and the bytes written to its standard
input. -/
structure GenoptOut where
  newargv : List Bytes
  stdinData : Bytes

/-- `cmd_genopt` from pivy-zfs: generate a random key, create an ebox for
it from the template, and exec the child command with
`-o encryption=on -o keyformat=raw -o rfd77:ebox=<base64 ebox>` prepended
to the caller's arguments, writing the raw key to the child's stdin.
The random key and the per-part randomness are oracles here; the template
is the `-t` template (the global `zfsebtpl`). -/
def cmd_genopt (tpl : EboxTpl) (cmd subcmd opt : Bytes) (argv : List Bytes)
    (key : Bytes) (rnd : Nat → Bytes × Bytes) : GenoptOut :=
  ⟨[cmd, subcmd, opt, litBytes "encryption=on", opt, litBytes "keyformat=raw",
      opt, litBytes "rfd77:ebox=" ++
        sshbuf_dtob64 (sshbuf_put_ebox (ebox_create tpl key none rnd))] ++ argv,
    key⟩

/-- C10: in `cmd_genopt`, the 32-byte random key written verbatim to the
child process's standard input is exactly the key sealed by `ebox_create`
into the ebox carried in the generated `rfd77:ebox=` property: the
property's base64 payload decodes and parses back to that ebox, and
unsealing one PRIMARY part of it and unlocking yields precisely the
stdin bytes. -/
theorem C10_genopt_key_escrow (tpl : EboxTpl) (cmd subcmd opt : Bytes)
    (argv : List Bytes) (key : Bytes) (rnd : Nat → Bytes × Bytes)
    (ci pi : Nat) (tc : EboxTplConfig) (tp : EboxTplPart)
    (htpl : wfTpl tpl = true) (hrnd : wfCreateRnd key none rnd)
    (hkey : key.length = 32)
    (hlt : ∀ x ∈ sshbuf_put_ebox (ebox_create tpl key none rnd), x < 256)
    (hci : tpl.configs[ci]? = some tc) (hty : tc.ctype = CfgType.primary)
    (hpi : tc.parts[pi]? = some tp) :
    (cmd_genopt tpl cmd subcmd opt argv key rnd).stdinData = key ∧
    ∃ raw,
      (cmd_genopt tpl cmd subcmd opt argv key rnd).newargv[7]? =
        some (litBytes "rfd77:ebox=" ++ sshbuf_dtob64 raw) ∧
      sshbuf_b64tod (sshbuf_dtob64 raw) = some raw ∧
      sshbuf_get_ebox raw = some (ebox_create tpl key none rnd, []) ∧
      ∃ e1, ebox_unseal_part (ebox_create tpl key none rnd) ci pi tp.pubkey =
          Except.ok e1 ∧
        ebox_unlock e1 ci = Except.ok { e1 with key := some key } ∧
        ebox_key { e1 with key := some key } =
          some (cmd_genopt tpl cmd subcmd opt argv key rnd).stdinData := by
  refine ⟨rfl, sshbuf_put_ebox (ebox_create tpl key none rnd),
    (by simp [cmd_genopt]),
    b64tod_dtob64 (sshbuf_put_ebox (ebox_create tpl key none rnd)) hlt, ?_, ?_⟩
  · have h := sshbuf_get_put_ebox (ebox_create tpl key none rnd) []
      (wfEbox_create tpl key none rnd htpl hrnd)
    rw [List.append_nil] at h
    exact h
  · have hKne : key ≠ [] := by
      intro h0
      rw [h0] at hkey
      simp at hkey
    exact create_unlock_chain tpl key rnd ci pi tc tp hKne hci hty hpi

def w10Part : EboxTplPart := ⟨21, none, none, some [9, 9]⟩

def w10Tpl : EboxTpl := ⟨1, [⟨CfgType.primary, 1, [w10Part]⟩]⟩

def w10Key : Bytes := List.replicate 32 7

def w10Rnd : Nat → Bytes × Bytes := fun _ => ([2, 2], [4])

/-- Witness for C10: a one-part primary template, a concrete 32-byte key
and fixed randomness; the child's stdin bytes coincide with the key
recovered from the ebox in the generated property. -/
theorem C10_witness :
    (cmd_genopt w10Tpl (litBytes "zfs") (litBytes "create") (litBytes "-o")
        [] w10Key w10Rnd).stdinData = w10Key ∧
    ∃ raw,
      (cmd_genopt w10Tpl (litBytes "zfs") (litBytes "create") (litBytes "-o")
          [] w10Key w10Rnd).newargv[7]? =
        some (litBytes "rfd77:ebox=" ++ sshbuf_dtob64 raw) ∧
      sshbuf_b64tod (sshbuf_dtob64 raw) = some raw ∧
      sshbuf_get_ebox raw = some (ebox_create w10Tpl w10Key none w10Rnd, []) ∧
      ∃ e1, ebox_unseal_part (ebox_create w10Tpl w10Key none w10Rnd) 0 0
          w10Part.pubkey = Except.ok e1 ∧
        ebox_unlock e1 0 = Except.ok { e1 with key := some w10Key } ∧
        ebox_key { e1 with key := some w10Key } =
          some (cmd_genopt w10Tpl (litBytes "zfs") (litBytes "create")
            (litBytes "-o") [] w10Key w10Rnd).stdinData :=
  C10_genopt_key_escrow w10Tpl (litBytes "zfs") (litBytes "create")
    (litBytes "-o") [] w10Key w10Rnd 0 0 ⟨CfgType.primary, 1, [w10Part]⟩ w10Part
    (by decide) (by intro i; simp only [w10Rnd, optLen]; decide) (by decide)
    (by decide) rfl rfl rfl
